import Mathlib

/-!
Verification of the DegenPrimer core modules (`SearchEngine.py`,
`PCR_Simulation.py`) against their natural-language specification.

The Python code is shallowly embedded: pure functions become Lean
functions over `ℚ` (the code's floating-point arithmetic is modelled by
exact rational arithmetic), fallible code returns `Option`/`Except`,
and the stateful PCR simulation becomes explicit state passing.
-/

namespace DegenPrimer

/-! ## Sequence mapper (`SearchEngine._T_AT_mapping` …)

The code maps nucleotide letters to complex numbers of the form
`a + b·(√3/2)·i` with `a b : ℚ` (the third roots of unity and their sums).
This subfield is closed under the arithmetic the scorer performs, so we
represent such a number by the pair `(a, b)`; addition is componentwise
(the `Prod` instance) and multiplication is `cxMul` below, which is
exactly complex multiplication transported along this representation. -/

/-- Numbers `a + b·(√3/2)·i`, represented as the pair `(a, b)`. -/
abbrev Cx : Type := ℚ × ℚ

/-- Complex multiplication on `Cx`:
`(a + b·(√3/2)i)·(c + d·(√3/2)i) = (ac − (3/4)bd) + (ad + bc)·(√3/2)i`. -/
def cxMul (x y : Cx) : Cx :=
  (x.1 * y.1 - 3/4 * (x.2 * y.2), x.1 * y.2 + x.2 * y.1)

/-- Real part of a `Cx` number. -/
def cxRe (x : Cx) : ℚ := x.1

/-- Trivial third root of unity `_w_3_0 = 1`. -/
def w_3_0 : Cx := (1, 0)

/-- Third root of unity `_w_3_1 = −1/2 + (√3/2)i`. -/
def w_3_1 : Cx := (-1/2, 1)

/-- Third root of unity squared, `_w_3_2 = −1/2 − (√3/2)i`. -/
def w_3_2 : Cx := (-1/2, -1)

/-- Template AT-channel mapping (`SearchEngine._T_AT_mapping` as applied in
`_find_in_chunk`): the chunk's bytes are loaded verbatim into a complex
array and only the bytes `A`, `T`, `G`, `C` are replaced (`A→ω₁`, `T→ω₂`,
`G→0`, `C→0`); any other byte keeps its raw ASCII value. -/
def T_AT_mapping (c : Char) : Cx :=
  if c = 'A' then w_3_1
  else if c = 'T' then w_3_2
  else if c = 'G' then 0
  else if c = 'C' then 0
  else ((c.toNat : ℚ), 0)

/-- Template GC-channel mapping (`SearchEngine._T_GC_mapping` as applied in
`_find_in_chunk`): `G→ω₁`, `C→ω₂`, `A→0`, `T→0`, any other byte keeps its
raw ASCII value. -/
def T_GC_mapping (c : Char) : Cx :=
  if c = 'A' then 0
  else if c = 'T' then 0
  else if c = 'G' then w_3_1
  else if c = 'C' then w_3_2
  else ((c.toNat : ℚ), 0)

/-- Pattern AT-channel mapping (`SearchEngine._P_AT_mapping`); via
`_map_letter`, a letter outside the dictionary maps to `0`. -/
def P_AT_mapping (c : Char) : Cx :=
  if c = 'A' then w_3_2
  else if c = 'T' then w_3_1
  else if c = 'G' then w_3_0
  else if c = 'C' then w_3_0
  else if c = 'R' then w_3_2
  else if c = 'Y' then w_3_1
  else if c = 'S' then w_3_0
  else if c = 'W' then w_3_2 + w_3_1
  else if c = 'K' then w_3_1
  else if c = 'M' then w_3_2
  else if c = 'B' then w_3_1
  else if c = 'D' then w_3_2 + w_3_1
  else if c = 'H' then w_3_2 + w_3_1
  else if c = 'V' then w_3_2
  else if c = 'N' then w_3_2 + w_3_1
  else 0

/-- Pattern GC-channel mapping (`SearchEngine._P_GC_mapping`); via
`_map_letter`, a letter outside the dictionary maps to `0`. -/
def P_GC_mapping (c : Char) : Cx :=
  if c = 'A' then w_3_0
  else if c = 'T' then w_3_0
  else if c = 'G' then w_3_2
  else if c = 'C' then w_3_1
  else if c = 'R' then w_3_2
  else if c = 'Y' then w_3_1
  else if c = 'S' then w_3_2 + w_3_1
  else if c = 'W' then w_3_0
  else if c = 'K' then w_3_2
  else if c = 'M' then w_3_1
  else if c = 'B' then w_3_2 + w_3_1
  else if c = 'D' then w_3_2
  else if c = 'H' then w_3_1
  else if c = 'V' then w_3_2 + w_3_1
  else if c = 'N' then w_3_2 + w_3_1
  else 0

/-- Channel map of a sequence, zero-padded (or truncated) to `mapLen`
entries. Models `np.zeros(map_len)` filled letter by letter in
`SearchEngine._map_pattern`, and `np.ndarray.resize(c_size)` applied to
the mapped template chunk in `_find_in_chunk` (the pattern is assumed not
to exceed `map_len`, as in the code, where a longer pattern would be an
index error). -/
def seqMap (f : Char → Cx) (s : List Char) (mapLen : ℕ) : List Cx :=
  (s.map f).takeD mapLen (0 : Cx)

/-- Pattern channel maps (`SearchEngine._map_pattern`). -/
def map_pattern (pattern : List Char) (mapLen : ℕ) : List Cx × List Cx :=
  (seqMap P_AT_mapping pattern mapLen, seqMap P_GC_mapping pattern mapLen)

/-- Raw per-position channel score of `_find_in_chunk`.
The code computes `ifft(fft(t_map[::-1]) * p_fft)[::-1][:c_stride]` where
`p_fft = fft(p_map)`; by the convolution theorem this product of FFTs is,
in exact complex arithmetic, the cyclic cross-correlation
`score[j] = Σ_{i < c_size} t_map[(j+i) mod c_size] · p_map[i]`,
which is what we write down directly. -/
def rawScore (tMap pMap : List Cx) (cSize j : ℕ) : Cx :=
  ∑ i ∈ Finset.range cSize, cxMul (tMap.getD ((j + i) % cSize) 0) (pMap.getD i 0)

/-- Per-position corrected score list of `SearchEngine._find_in_chunk`:
real parts of the two channel correlations are summed and the correction
`score + correction − score/3` is applied; only the first `c_stride`
positions are kept. -/
def find_in_chunk (tChunk : List Char) (pFFT : List Cx × List Cx)
    (correction : ℚ) (cSize cStride : ℕ) : List ℚ :=
  let tATmap := seqMap T_AT_mapping tChunk cSize
  let tGCmap := seqMap T_GC_mapping tChunk cSize
  (List.range cStride).map fun j =>
    let score := cxRe (rawScore tATmap pFFT.1 cSize j) + cxRe (rawScore tGCmap pFFT.2 cSize j)
    score + correction - score / 3

/-- Unambiguous nucleotide letters. -/
def unambiguous : List Char := ['A', 'T', 'G', 'C']

/-- Hamming match count between a primer and a template window: the number
of positions `i` below the primer length where the two letters agree. -/
def hammingMatches (p w : List Char) : ℕ :=
  ((Finset.range p.length).filter fun i => p.getD i ' ' = w.getD i ' ').card

theorem takeD_getD {α : Type} (d : α) :
    ∀ (n : ℕ) (l : List α) (i : ℕ), i < n → (l.takeD n d).getD i d = l.getD i d := by
  intro n
  induction n with
  | zero => intro l i hi; omega
  | succ n ih =>
    intro l i hi
    rw [List.takeD_succ]
    cases i with
    | zero =>
      cases l <;> simp
    | succ i =>
      have := ih l.tail i (by omega)
      cases l with
      | nil => simpa using this
      | cons a l => simpa using this

theorem seqMap_getD (f : Char → Cx) (s : List Char) (n i : ℕ) (hi : i < n) :
    (seqMap f s n).getD i 0 = if i < s.length then f (s.getD i ' ') else 0 := by
  unfold seqMap
  rw [takeD_getD _ n _ i hi]
  by_cases h : i < s.length
  · rw [if_pos h]
    rw [List.getD_eq_getElem _ _ (by simpa using h), List.getElem_map,
        List.getD_eq_getElem _ _ h]
  · rw [if_neg h]
    exact List.getD_eq_default _ _ (by simpa using Nat.le_of_not_lt h)

theorem cxMul_zero_right (x : Cx) : cxMul x 0 = 0 := by
  simp [cxMul, Prod.ext_iff]

theorem drop_take_getD {α : Type} (l : List α) (j L i : ℕ) (d : α)
    (hi : i < L) (h : j + L ≤ l.length) :
    ((l.drop j).take L).getD i d = l.getD (j + i) d := by
  have hlen : ((l.drop j).take L).length = L := by
    simp only [List.length_take, List.length_drop]
    omega
  rw [List.getD_eq_getElem _ _ (by omega : i < ((l.drop j).take L).length),
      List.getD_eq_getElem _ _ (by omega : j + i < l.length)]
  rw [List.getElem_take, List.getElem_drop]

theorem rawScore_eq_window (tf pf : Char → Cx) (chunk p : List Char) (cSize j : ℕ)
    (hwin : j + p.length ≤ chunk.length) (hchunk : chunk.length ≤ cSize) :
    rawScore (seqMap tf chunk cSize) (seqMap pf p cSize) cSize j
      = ∑ i ∈ Finset.range p.length,
          cxMul (tf (chunk.getD (j + i) ' ')) (pf (p.getD i ' ')) := by
  unfold rawScore
  have hsub : Finset.range p.length ⊆ Finset.range cSize :=
    Finset.range_subset.mpr (by omega)
  rw [← Finset.sum_subset hsub]
  · apply Finset.sum_congr rfl
    intro i hi
    rw [Finset.mem_range] at hi
    have hji : j + i < cSize := by omega
    rw [Nat.mod_eq_of_lt hji]
    rw [seqMap_getD _ _ _ _ hji, seqMap_getD _ _ _ _ (by omega : i < cSize)]
    rw [if_pos (by omega : j + i < chunk.length), if_pos hi]
  · intro i hiC hiL
    rw [Finset.mem_range] at hiC
    rw [Finset.mem_range] at hiL
    rw [seqMap_getD _ _ _ _ hiC, if_neg hiL, cxMul_zero_right]

theorem channel_contrib (a b : Char) (ha : a ∈ unambiguous) (hb : b ∈ unambiguous) :
    cxRe (cxMul (T_AT_mapping b) (P_AT_mapping a))
      + cxRe (cxMul (T_GC_mapping b) (P_GC_mapping a))
      = if a = b then 1 else -(1/2) := by
  fin_cases ha <;> fin_cases hb <;>
    (simp only [T_AT_mapping, T_GC_mapping, P_AT_mapping, P_GC_mapping, cxMul, cxRe,
      w_3_0, w_3_1, w_3_2, Char.reduceEq, if_false, if_true, reduceIte] <;> norm_num)

/-- Claim C1: for an unambiguous (ATGC-only) primer of length `L` and an
ATGC template window of length `L` starting at an in-stride position `j`
of the chunk, the corrected per-position score produced by
`_find_in_chunk` from the root-of-unity channel maps equals exactly the
Hamming match count of primer versus window. -/
theorem fft_score_eq_hamming (chunk p : List Char) (cSize cStride j : ℕ)
    (hp : ∀ c ∈ p, c ∈ unambiguous)
    (hw : ∀ c ∈ (chunk.drop j).take p.length, c ∈ unambiguous)
    (hwin : j + p.length ≤ chunk.length)
    (hchunk : chunk.length ≤ cSize)
    (hstride : cStride + p.length ≤ cSize)
    (hj : j < cStride) :
    (find_in_chunk chunk (map_pattern p cSize) ((p.length : ℚ) / 3) cSize cStride).getD j 0
      = hammingMatches p ((chunk.drop j).take p.length) := by
  unfold find_in_chunk map_pattern
  have hlen : j < ((List.range cStride).map
      (fun j => (fun score => score + (p.length : ℚ) / 3 - score / 3)
        (cxRe (rawScore (seqMap T_AT_mapping chunk cSize) (seqMap P_AT_mapping p cSize) cSize j)
          + cxRe (rawScore (seqMap T_GC_mapping chunk cSize) (seqMap P_GC_mapping p cSize) cSize j)))).length := by
    simpa using hj
  rw [List.getD_eq_getElem _ _ hlen, List.getElem_map, List.getElem_range]
  set L := p.length with hL
  set w := (chunk.drop j).take L with hwdef
  have hre : ∀ tf pf : Char → Cx,
      cxRe (rawScore (seqMap tf chunk cSize) (seqMap pf p cSize) cSize j)
        = ∑ i ∈ Finset.range L, cxRe (cxMul (tf (chunk.getD (j + i) ' ')) (pf (p.getD i ' '))) := by
    intro tf pf
    rw [rawScore_eq_window tf pf chunk p cSize j hwin hchunk]
    exact Prod.fst_sum
  rw [hre, hre, ← Finset.sum_add_distrib]
  have hcw : ∀ i ∈ Finset.range L, chunk.getD (j + i) ' ' = w.getD i ' ' := by
    intro i hi
    rw [Finset.mem_range] at hi
    rw [hwdef, drop_take_getD chunk j L i ' ' hi hwin]
  have hsum : (∑ i ∈ Finset.range L,
      (cxRe (cxMul (T_AT_mapping (chunk.getD (j + i) ' ')) (P_AT_mapping (p.getD i ' ')))
        + cxRe (cxMul (T_GC_mapping (chunk.getD (j + i) ' ')) (P_GC_mapping (p.getD i ' ')))))
      = ∑ i ∈ Finset.range L, (if p.getD i ' ' = w.getD i ' ' then (1 : ℚ) else -(1/2)) := by
    apply Finset.sum_congr rfl
    intro i hi
    rw [hcw i hi]
    apply channel_contrib
    · apply hp
      rw [Finset.mem_range] at hi
      rw [List.getD_eq_getElem _ _ (by omega : i < p.length)]
      exact List.getElem_mem _
    · apply hw
      have hwlen : w.length = L := by
        rw [hwdef]
        simp only [List.length_take, List.length_drop]
        omega
      rw [Finset.mem_range] at hi
      rw [List.getD_eq_getElem _ _ (by omega : i < w.length)]
      exact List.getElem_mem _
  rw [hsum]
  rw [Finset.sum_ite]
  rw [Finset.sum_const, Finset.sum_const]
  have hm : hammingMatches p w
      = ((Finset.range L).filter fun i => p.getD i ' ' = w.getD i ' ').card := rfl
  have hmle : ((Finset.range L).filter fun i => p.getD i ' ' = w.getD i ' ').card ≤ L := by
    simpa using Finset.card_filter_le (Finset.range L) _
  have hcards : ((Finset.range L).filter fun i => ¬ p.getD i ' ' = w.getD i ' ').card
      = L - ((Finset.range L).filter fun i => p.getD i ' ' = w.getD i ' ').card := by
    have := @Finset.filter_card_add_filter_neg_card_eq_card _ (Finset.range L)
      (fun i => p.getD i ' ' = w.getD i ' ') (fun _ => inferInstance) (fun _ => inferInstance)
    rw [Finset.card_range] at this
    omega
  rw [hcards, hm]
  set m := ((Finset.range L).filter fun i => p.getD i ' ' = w.getD i ' ').card with hmdef
  have hLm : ((L - m : ℕ) : ℚ) = (L : ℚ) - (m : ℚ) := by
    push_cast [Nat.cast_sub hmle]
    ring
  rw [nsmul_eq_mul, nsmul_eq_mul, hLm]
  ring

/-- Claim C2 (refutation): a template byte that is not one of `A`, `T`,
`G`, `C` is NOT scored as a zero-contribution wildcard: the code loads the
raw ASCII value into both channel maps, so the single byte `N` (ASCII 78)
against the primer `G` yields the corrected score `79/3`, whereas a
zero-contribution wildcard would yield `1/3`. -/
theorem nonATGC_byte_not_zero_scored :
    (find_in_chunk ['N'] (map_pattern ['G'] 4) (1/3) 4 3).getD 0 0 = 79/3
      ∧ ((79 : ℚ)/3 ≠ 1/3) := by
  constructor
  · simp only [find_in_chunk, map_pattern, rawScore, seqMap, cxMul, cxRe,
      T_AT_mapping, T_GC_mapping, P_AT_mapping, P_GC_mapping, w_3_0, w_3_1, w_3_2,
      Char.reduceEq, if_false, if_true, reduceIte, Char.reduceToNat,
      Finset.sum_range_succ, Finset.sum_range_zero, List.map_cons, List.map_nil,
      List.takeD_succ, List.takeD_zero, List.takeD_nil, List.range_succ]
    norm_num
  · norm_num

/-- Witness for `fft_score_eq_hamming` at a concrete chunk and primer. -/
theorem fft_score_eq_hamming_witness :
    (find_in_chunk ['A', 'T', 'G', 'C'] (map_pattern ['A', 'T'] 8)
        (((['A', 'T'] : List Char).length : ℚ) / 3) 8 6).getD 0 0
      = hammingMatches ['A', 'T']
          (((['A', 'T', 'G', 'C'] : List Char).drop 0).take (['A', 'T'] : List Char).length) :=
  fft_score_eq_hamming ['A', 'T', 'G', 'C'] ['A', 'T'] 8 6 0
    (by decide) (by decide) (by decide) (by decide) (by decide) (by decide)

/-! ## Match assembler (`SearchEngine._compile_duplexes`,
`SearchEngine._compile_duplexes_mp`)

The `Duplex` evaluator is an external collaborator (`SecStructures.Duplex`);
it is abstracted as a function `dup` from a primer-variant sequence and the
reverse-complemented template slice to an `Option` over an abstract duplex
type (modelled as `ℕ`): `none` models a falsy `Duplex` object, which the
assembler skips. The cooperative abort event is modelled as never set. -/

/-- Nucleotide complement as used on template slices
(`template[position:position+p_len].complement()`). -/
def complementChar (c : Char) : Char :=
  if c = 'A' then 'T'
  else if c = 'T' then 'A'
  else if c = 'G' then 'C'
  else if c = 'C' then 'G'
  else c

/-- One annealing site compiled by
`SearchEngine._compile_duplexes_for_position`: the duplexes formed by the
unambiguous components of the primer at a matched location, together with
the reported position (`position + p_len` on the forward strand,
`t_len + 1 − (position + p_len)` mirrored on the reverse strand). -/
def compile_duplexes_for_position (dup : List Char → List Char → Option ℕ)
    (variants : List (List Char × String)) (template : List Char)
    (tLen pLen pos : ℕ) (reverse : Bool) : ℕ × List (ℕ × String) :=
  let duplexes := variants.filterMap fun v =>
    (dup v.1 ((((template.drop pos).take pLen).map complementChar).reverse)).map
      fun d => (d, v.2)
  if reverse then (tLen + 1 - (pos + pLen), duplexes) else (pos + pLen, duplexes)

/-- Single-process duplex compilation (`SearchEngine._compile_duplexes`):
iterate the match positions of each strand in order, keeping sites with at
least one duplex. No sorting is performed on either result list. -/
def compile_duplexes (dup : List Char → List Char → Option ℕ)
    (variants : List (List Char × String)) (fwdSeq revSeq : List Char)
    (tLen pLen : ℕ) (fwdMatches revMatches : List ℕ) :
    List (ℕ × List (ℕ × String)) × List (ℕ × List (ℕ × String)) :=
  let fwdResults := fwdMatches.filterMap fun pos =>
    let duplexes := compile_duplexes_for_position dup variants fwdSeq tLen pLen pos false
    if duplexes.2.isEmpty then none else some duplexes
  let revResults := revMatches.filterMap fun pos =>
    let duplexes := compile_duplexes_for_position dup variants revSeq tLen pLen pos true
    if duplexes.2.isEmpty then none else some duplexes
  (fwdResults, revResults)

/-- Multiprocessing duplex compilation (`SearchEngine._compile_duplexes_mp`):
the same per-position results, but both lists are explicitly sorted by
position before being returned (`fwd_results.sort(key=lambda x: x[0])`). -/
def compile_duplexes_mp (dup : List Char → List Char → Option ℕ)
    (variants : List (List Char × String)) (fwdSeq revSeq : List Char)
    (tLen pLen : ℕ) (fwdMatches revMatches : List ℕ) :
    List (ℕ × List (ℕ × String)) × List (ℕ × List (ℕ × String)) :=
  let results := compile_duplexes dup variants fwdSeq revSeq tLen pLen fwdMatches revMatches
  (results.1.mergeSort (fun a b => a.1 ≤ b.1), results.2.mergeSort (fun a b => a.1 ≤ b.1))

/-- Ascending sortedness of an annealing-site list by its position field. -/
def sortedByPos (l : List (ℕ × List (ℕ × String))) : Prop :=
  List.Pairwise (fun a b => a.1 ≤ b.1) l

/-! ## Length check and `find` (`SearchEngine._check_length_inequality`) -/

/-- Length precondition check (`SearchEngine._check_length_inequality`):
raises `ValueError` when the template is shorter than the primer or the
primer is empty. -/
def check_length_inequality (tLen pLen : ℕ) : Except String Unit :=
  if tLen < pLen ∨ pLen = 0 then
    .error ("SearchEngine._find: template sequence should be longer or equal "
      ++ "to primer sequence and both should be grater than zero.")
  else .ok ()

/-- Entry point `SearchEngine.find`: the length check runs first; only if it
passes is the scoring-and-assembly work (abstracted as the continuation
`search`, standing for `_find_mp` or `_find`) performed. -/
def findPrimer {α : Type} (search : Unit → α) (tLen pLen : ℕ) : Except String α :=
  match check_length_inequality tLen pLen with
  | .error e => .error e
  | .ok () => .ok (search ())

/-- Claim C3 (refutation): the single-process path `_compile_duplexes` does
not sort its results, and reverse-strand positions are mirrored, so with
two ascending reverse match indices the returned reverse list has
descending positions `[26, 21]` and is not sorted ascending. -/
theorem compile_duplexes_rev_not_sorted :
    ¬ sortedByPos (compile_duplexes (fun _ _ => some 0) [(['A', 'A', 'A', 'A', 'A'], "v1")]
        (List.replicate 30 'A') (List.replicate 30 'A') 30 5 [0, 5] [0, 5]).2 := by
  intro h
  have : (compile_duplexes (fun _ _ => some 0) [(['A', 'A', 'A', 'A', 'A'], "v1")]
      (List.replicate 30 'A') (List.replicate 30 'A') 30 5 [0, 5] [0, 5]).2
      = [(26, [(0, "v1")]), (21, [(0, "v1")])] := by decide
  rw [this] at h
  have h26 : (26 : ℕ) ≤ 21 := by
    have hp := List.pairwise_cons.mp h
    exact hp.1 (21, [(0, "v1")]) (by simp)
  omega

/-- Claim C3 (amended): the multiprocessing path `_compile_duplexes_mp`
returns both lists sorted ascending by position; the single-process path
`_compile_duplexes` returns the forward list sorted ascending but the
reverse list sorted descending (positions are mirrored and never
re-sorted), whenever the match-index lists are ascending (as the
thresholded `np.arange` index arrays are). -/
theorem compile_duplexes_sortedness (dup : List Char → List Char → Option ℕ)
    (variants : List (List Char × String)) (fwdSeq revSeq : List Char)
    (tLen pLen : ℕ) (fwdMatches revMatches : List ℕ)
    (hfwd : List.Pairwise (· ≤ ·) fwdMatches)
    (hrev : List.Pairwise (· ≤ ·) revMatches) :
    sortedByPos (compile_duplexes_mp dup variants fwdSeq revSeq tLen pLen
        fwdMatches revMatches).1
    ∧ sortedByPos (compile_duplexes_mp dup variants fwdSeq revSeq tLen pLen
        fwdMatches revMatches).2
    ∧ sortedByPos (compile_duplexes dup variants fwdSeq revSeq tLen pLen
        fwdMatches revMatches).1
    ∧ List.Pairwise (fun a b => b.1 ≤ a.1)
        (compile_duplexes dup variants fwdSeq revSeq tLen pLen fwdMatches revMatches).2 := by
  have hms : ∀ l : List (ℕ × List (ℕ × String)), sortedByPos (l.mergeSort fun a b => a.1 ≤ b.1) := by
    intro l
    have hs := @List.sorted_mergeSort _
      (fun a b : ℕ × List (ℕ × String) => decide (a.1 ≤ b.1))
      (fun a b c hab hbc => by
        simp only [decide_eq_true_eq] at *
        omega)
      (fun a b => by
        simp only [Bool.or_eq_true, decide_eq_true_eq]
        omega)
      l
    exact hs.imp (by simp only [decide_eq_true_eq]; exact id)
  refine ⟨hms _, hms _, ?_, ?_⟩
  · simp only [compile_duplexes]
    apply List.pairwise_filterMap.mpr
    apply hfwd.imp
    intro a b hab x hx y hy
    rw [Option.mem_def] at hx hy
    split at hx
    · simp at hx
    · split at hy
      · simp at hy
      · rw [← Option.some_inj.mp hx, ← Option.some_inj.mp hy]
        simp only [compile_duplexes_for_position, Bool.false_eq_true, if_false]
        omega
  · simp only [compile_duplexes]
    apply List.pairwise_filterMap.mpr
    apply hrev.imp
    intro a b hab x hx y hy
    rw [Option.mem_def] at hx hy
    split at hx
    · simp at hx
    · split at hy
      · simp at hy
      · rw [← Option.some_inj.mp hx, ← Option.some_inj.mp hy]
        simp only [compile_duplexes_for_position, if_true]
        omega

/-- Witness for `compile_duplexes_sortedness` at a concrete input. -/
theorem compile_duplexes_sortedness_witness :
    sortedByPos (compile_duplexes_mp (fun _ _ => some 0) [(['A'], "v1")]
        ['A', 'A', 'A'] ['A', 'A', 'A'] 3 1 [0, 2] [0, 2]).2
    ∧ List.Pairwise (fun a b : ℕ × List (ℕ × String) => b.1 ≤ a.1)
        (compile_duplexes (fun _ _ => some 0) [(['A'], "v1")]
          ['A', 'A', 'A'] ['A', 'A', 'A'] 3 1 [0, 2] [0, 2]).2 := by
  have h := compile_duplexes_sortedness (fun _ _ => some 0) [(['A'], "v1")]
    ['A', 'A', 'A'] ['A', 'A', 'A'] 3 1 [0, 2] [0, 2]
    (by decide) (by decide)
  exact ⟨h.2.1, h.2.2.2⟩

/-- Claim C8: `find` raises `ValueError` exactly when the primer is longer
than the template or the primer is empty, and this happens before any
scoring work (the result does not depend on the scoring continuation);
for all other length combinations the length check passes and the scoring
result is returned. -/
theorem find_length_check {α : Type} (tLen pLen : ℕ) (search : Unit → α) :
    ((∃ e, findPrimer search tLen pLen = Except.error e) ↔ (tLen < pLen ∨ pLen = 0))
    ∧ ((tLen < pLen ∨ pLen = 0) → ∀ search₂ : Unit → α,
        findPrimer search tLen pLen = findPrimer search₂ tLen pLen)
    ∧ (¬(tLen < pLen ∨ pLen = 0) → findPrimer search tLen pLen = Except.ok (search ())) := by
  unfold findPrimer check_length_inequality
  by_cases h : tLen < pLen ∨ pLen = 0
  · simp [h]
  · simp [h]

/-- Witness for `find_length_check` at concrete lengths. -/
theorem find_length_check_witness :
    findPrimer (fun _ => (0 : ℕ)) 1 2 = findPrimer (fun _ => (7 : ℕ)) 1 2
    ∧ findPrimer (fun _ => (5 : ℕ)) 9 3 = Except.ok 5 :=
  ⟨(find_length_check 1 2 (fun _ => 0)).2.1 (by decide) (fun _ => 7),
   (find_length_check 9 3 (fun _ => 5)).2.2 (by decide)⟩

/-! ## PCR simulation data model (`PCR_Simulation.py`)

Positions are `ℤ` (Python integers); concentrations are `ℚ` (exact model
of the float arithmetic). A raised `ValueError` is modelled as `none`.
The field `stop` models the Python attribute `end` (a Lean keyword). -/

/-- Region of a sequence (`Region`): 1-based inclusive `(name, start, end)`. -/
structure Region where
  name : String
  start : ℤ
  stop : ℤ
deriving DecidableEq

/-- Validated construction (`Region.__init__`); `none` models the two
`ValueError`s for coordinates below 1 or an inverted interval. -/
def mkRegion (name : String) (start stop : ℤ) : Option Region :=
  if start < 1 ∨ stop < 1 then none
  else if start > stop then none
  else some ⟨name, start, stop⟩

/-- Merge (`Region.__iadd__`): on a name mismatch the region is unchanged,
otherwise the interval hull is taken. -/
def regionIAdd (s T : Region) : Region :=
  if s.name ≠ T.name then s
  else { s with start := min s.start T.start, stop := max s.stop T.stop }

/-- Overlap predicate exactly as written (`Region.overlaps`): because
Python's `and` binds tighter than `or`, the expression
`name_eq and start_in or end_in` parses as
`(name_eq and start_in) or end_in`. -/
def overlaps (s T : Region) : Bool :=
  (s.name == T.name && (decide (s.start ≤ T.start) && decide (T.start ≤ s.stop)))
    || (decide (s.start ≤ T.stop) && decide (T.stop ≤ s.stop))

/-- Plain interval intersection of two regions (the spec's notion of two
footprints overlapping as intervals). -/
def intervalsIntersect (a b : Region) : Bool :=
  decide (a.start ≤ b.stop) && decide (b.start ≤ a.stop)

/-- Duplex record (external `SecStructures.Duplex`), reduced to the fields
the simulation reads: equilibrium constant `K`, the 3′-mismatch flag, the
forward (primer variant) sequence and its length `fwd_len`. -/
structure Duplex where
  K : ℚ
  fwd_3_mismatch : Bool
  fwd_seq : String
  fwd_len : ℤ
deriving DecidableEq

/-- Primer record, reduced to the fields the simulation reads: the
unambiguous component sequences (`str_sequences`, also backing
`seq in primer` membership) and the concentration. -/
structure Primer where
  str_sequences : List String
  concentration : ℚ
deriving DecidableEq

/-- PCR product (`Product`); Python's `set` of primers is modelled as a
list deduplicated on insertion. -/
structure Product where
  name : String
  start : ℤ
  stop : ℤ
  quantity : ℚ
  cycles : ℕ
  fwd_primers : List (Duplex × String)
  rev_primers : List (Duplex × String)
  fwd_margin : ℤ
  rev_margin : ℤ
  fwd_template : Region
  rev_template : Region
deriving DecidableEq

/-- Attach a forward primer (`Product.add_fwd_primer`): the footprint
`Region(max(start − fwd_len, 1), max(start − 1, 1))` is merged into
`fwd_template`; `none` models a `ValueError` from the `Region` constructor. -/
def addFwdPrimer (p : Product) (primer : Duplex × String) : Option Product :=
  if primer ∈ p.fwd_primers then some p
  else do
    let r ← mkRegion p.name (max (p.start - primer.1.fwd_len) 1) (max (p.start - 1) 1)
    some { p with fwd_primers := p.fwd_primers ++ [primer],
                  fwd_template := regionIAdd p.fwd_template r }

/-- Attach a reverse primer (`Product.add_rev_primer`): the footprint
`Region(end + 1, end + fwd_len)` is merged into `rev_template`. -/
def addRevPrimer (p : Product) (primer : Duplex × String) : Option Product :=
  if primer ∈ p.rev_primers then some p
  else do
    let r ← mkRegion p.name (p.stop + 1) (p.stop + primer.1.fwd_len)
    some { p with rev_primers := p.rev_primers ++ [primer],
                  rev_template := regionIAdd p.rev_template r }

/-- Construction (`Product.__init__`): validates the region, clamps the
forward margin at 1, then attaches every given primer. -/
def mkProduct (templateName : String) (start stop : ℤ)
    (fwdPrimers revPrimers : List (Duplex × String)) : Option Product := do
  let _ ← mkRegion templateName start stop
  let fwdMargin := if start - 1 < 1 then 1 else start - 1
  let revMargin := stop + 1
  let fwdT ← mkRegion templateName fwdMargin fwdMargin
  let revT ← mkRegion templateName revMargin revMargin
  let p : Product :=
    ⟨templateName, start, stop, 0, 0, [], [], fwdMargin, revMargin, fwdT, revT⟩
  let p ← fwdPrimers.foldlM addFwdPrimer p
  revPrimers.foldlM addRevPrimer p

/-- Merge of two products with the same dictionary key
(`Product.__iadd__`). -/
def productIAdd (s T : Product) : Option Product := do
  if s.name ≠ T.name then some s
  else
    let s ←
      if s.start > T.start then
        some { s with start := T.start, fwd_margin := T.fwd_margin,
                      fwd_template := T.fwd_template, fwd_primers := T.fwd_primers }
      else if s.start = T.start then T.fwd_primers.foldlM addFwdPrimer s
      else some s
    let s ←
      if s.stop < T.stop then
        some { s with stop := T.stop, rev_margin := T.rev_margin,
                      rev_template := T.rev_template, rev_primers := T.rev_primers }
      else if s.stop = T.stop then T.rev_primers.foldlM addRevPrimer s
      else some s
    some s

/-- Dictionary key of a stored product: `hash(Product)` is
`hash((name, start, end))`, modelled injectively by the triple itself. -/
abbrev ProductKey : Type := String × ℤ × ℤ

/-- Simulation parameters fixed at construction
(`PCR_Simulation.__init__`). -/
structure SimParams where
  primers : List Primer
  min_amplicon : ℤ
  max_amplicon : ℤ
  polymerase : ℚ
  with_exonuclease : Bool
  num_cycles : ℕ

/-- Class constant `PCR_Simulation._min_K = 100`. -/
def min_K : ℚ := 100

/-- Mutable simulation state touched by `add_product`: the product
dictionary, the per-hit template-footprint lists, and the `_nonzero` flag.
Python dicts are modelled as insertion-ordered association lists. -/
structure SimState where
  products : List (String × List (ProductKey × Product))
  templates : List (String × List Region)
  nonzero : Bool
deriving DecidableEq

/-- Ordered-dictionary lookup. -/
def alistFind {α β : Type} [DecidableEq α] (l : List (α × β)) (k : α) : Option β :=
  (l.find? fun kv => kv.1 = k).map (·.2)

/-- Ordered-dictionary store: an existing key keeps its position, a new
key is appended. -/
def alistSet {α β : Type} [DecidableEq α] (l : List (α × β)) (k : α) (v : β) :
    List (α × β) :=
  if l.any (fun kv => kv.1 = k) then l.map fun kv => if kv.1 = k then (k, v) else kv
  else l ++ [(k, v)]

/-- One step of the footprint compaction loop in
`PCR_Simulation._add_template`; the accumulator keeps the compacted list
reversed so that its head is `compacted[-1]`. -/
def compactStep (acc : List Region) (T : Region) : List Region :=
  match acc with
  | [] => [T]
  | c :: rest => if overlaps T c then regionIAdd c T :: rest else T :: c :: rest

/-- Footprint bookkeeping (`PCR_Simulation._add_template`): append the new
footprint, sort by start, then merge adjacent entries for which the
(buggy) `overlaps` predicate holds. Python's stable `sort(key=start)` is
modelled by Mathlib's stable (and kernel-computable) insertion sort. -/
def add_template (templates : List (String × List Region)) (hit : String)
    (newTemplate : Region) : List (String × List Region) :=
  let lst := ((alistFind templates hit).getD []) ++ [newTemplate]
  let sorted := lst.insertionSort fun a b => a.start ≤ b.start
  let compacted :=
    match sorted with
    | [] => []
    | h :: _ => (sorted.foldl compactStep [h]).reverse
  alistSet templates hit compacted

/-- Per-strand duplex filter of `PCR_Simulation.add_product`: keep a
duplex iff `K ≥ _min_K`, it has no 3′ mismatch (unless the polymerase has
exonuclease activity), and its forward sequence belongs to some primer of
the system. -/
def validDuplexes (params : SimParams) (duplexes : List (Duplex × String)) :
    List (Duplex × String) :=
  duplexes.filter fun d =>
    !(decide (d.1.K < min_K))
      && !(!params.with_exonuclease && d.1.fwd_3_mismatch)
      && params.primers.any fun primer => primer.str_sequences.contains d.1.fwd_seq

/-- `PCR_Simulation.add_product`: length gate, per-strand validity
filters, product construction/merge, then footprint bookkeeping. Returns
the Python boolean result paired with the new state; `none` models an
uncaught `ValueError` from the `Region` constructor. -/
def add_product (params : SimParams) (st : SimState) (hit : String)
    (start stop : ℤ) (fwdDuplexes revDuplexes : List (Duplex × String)) :
    Option (Bool × SimState) :=
  if ¬(params.min_amplicon ≤ stop - start + 1 ∧ stop - start + 1 ≤ params.max_amplicon) then
    some (false, st)
  else
    let validFwd := validDuplexes params fwdDuplexes
    let validRev := validDuplexes params revDuplexes
    if validFwd.isEmpty ∨ validRev.isEmpty then some (false, st)
    else do
      let newProduct ← mkProduct hit start stop validFwd validRev
      let st1 : SimState := { st with nonzero := false }
      let hitProducts := (alistFind st1.products hit).getD []
      let key : ProductKey := (newProduct.name, newProduct.start, newProduct.stop)
      let merged ←
        match alistFind hitProducts key with
        | none => some newProduct
        | some existing => productIAdd existing newProduct
      let hitProducts := alistSet hitProducts key merged
      let st2 : SimState := { st1 with products := alistSet st1.products hit hitProducts }
      let st3 : SimState := { st2 with
        templates := add_template st2.templates hit merged.fwd_template }
      let st4 : SimState := { st3 with
        templates := add_template st3.templates hit merged.rev_template }
      some (true, st4)

/-- Claim C4 (refutation): `overlaps` is not the intersection predicate
restricted to equal names. It returns `true` for regions on different
templates (`end_in` escapes the name guard), returns `false` for
same-name intervals where one strictly contains the other, and is not
symmetric. -/
theorem overlaps_claim_counterexample :
    (overlaps ⟨"a", 1, 10⟩ ⟨"b", 1, 5⟩ = true ∧ "a" ≠ "b")
    ∧ (overlaps ⟨"a", 5, 10⟩ ⟨"a", 1, 20⟩ = false
        ∧ intervalsIntersect ⟨"a", 5, 10⟩ ⟨"a", 1, 20⟩ = true)
    ∧ overlaps ⟨"a", 1, 20⟩ ⟨"a", 5, 10⟩ = true := by
  refine ⟨⟨by decide, by decide⟩, ⟨by decide, by decide⟩, by decide⟩

/-- Claim C4 (amended): because Python's `and` binds tighter than `or`,
`r.overlaps(s)` returns `true` iff either the names agree and `s.start`
lies in `[r.start, r.end]`, or — regardless of the names — `s.end` lies in
`[r.start, r.end]`. -/
theorem overlaps_characterisation (r s : Region) :
    overlaps r s = true ↔
      ((r.name = s.name ∧ r.start ≤ s.start ∧ s.start ≤ r.stop)
        ∨ (r.start ≤ s.stop ∧ s.stop ≤ r.stop)) := by
  simp [overlaps, and_assoc]

theorem addFwdPrimer_eq (p : Product) (d : Duplex × String) (hd : 1 ≤ d.1.fwd_len) :
    addFwdPrimer p d = some (if d ∈ p.fwd_primers then p
      else { p with fwd_primers := p.fwd_primers ++ [d],
                    fwd_template := regionIAdd p.fwd_template
                      ⟨p.name, max (p.start - d.1.fwd_len) 1, max (p.start - 1) 1⟩ }) := by
  unfold addFwdPrimer mkRegion
  by_cases hmem : d ∈ p.fwd_primers
  · simp [hmem]
  · rw [if_neg hmem, if_neg hmem, if_neg (by omega), if_neg (by omega)]
    rfl

theorem addRevPrimer_eq (p : Product) (d : Duplex × String) (hd : 1 ≤ d.1.fwd_len)
    (hstop : 1 ≤ p.stop) :
    addRevPrimer p d = some (if d ∈ p.rev_primers then p
      else { p with rev_primers := p.rev_primers ++ [d],
                    rev_template := regionIAdd p.rev_template
                      ⟨p.name, p.stop + 1, p.stop + d.1.fwd_len⟩ }) := by
  unfold addRevPrimer mkRegion
  by_cases hmem : d ∈ p.rev_primers
  · simp [hmem]
  · rw [if_neg hmem, if_neg hmem, if_neg (by omega), if_neg (by omega)]
    rfl

theorem addFwdPrimer_fields (p q : Product) (d : Duplex × String)
    (h : addFwdPrimer p d = some q) :
    q.name = p.name ∧ q.start = p.start ∧ q.stop = p.stop
      ∧ q.rev_template = p.rev_template ∧ q.rev_margin = p.rev_margin
      ∧ q.fwd_margin = p.fwd_margin := by
  unfold addFwdPrimer at h
  split at h
  · cases h
    exact ⟨rfl, rfl, rfl, rfl, rfl, rfl⟩
  · cases hreg : mkRegion p.name (max (p.start - d.1.fwd_len) 1) (max (p.start - 1) 1) with
    | none => rw [hreg] at h; cases h
    | some r =>
      rw [hreg] at h
      simp only [Option.bind_eq_bind, Option.some_bind, Option.some_inj] at h
      cases h
      exact ⟨rfl, rfl, rfl, rfl, rfl, rfl⟩

theorem addRevPrimer_fields (p q : Product) (d : Duplex × String)
    (h : addRevPrimer p d = some q) :
    q.name = p.name ∧ q.start = p.start ∧ q.stop = p.stop
      ∧ q.fwd_template = p.fwd_template ∧ q.rev_margin = p.rev_margin
      ∧ q.fwd_margin = p.fwd_margin := by
  unfold addRevPrimer at h
  split at h
  · cases h
    exact ⟨rfl, rfl, rfl, rfl, rfl, rfl⟩
  · cases hreg : mkRegion p.name (p.stop + 1) (p.stop + d.1.fwd_len) with
    | none => rw [hreg] at h; cases h
    | some r =>
      rw [hreg] at h
      simp only [Option.bind_eq_bind, Option.some_bind, Option.some_inj] at h
      cases h
      exact ⟨rfl, rfl, rfl, rfl, rfl, rfl⟩

theorem foldlM_addFwd_fields :
    ∀ (l : List (Duplex × String)) (p q : Product),
      l.foldlM addFwdPrimer p = some q →
      q.name = p.name ∧ q.start = p.start ∧ q.stop = p.stop
        ∧ q.rev_template = p.rev_template ∧ q.rev_margin = p.rev_margin
        ∧ q.fwd_margin = p.fwd_margin := by
  intro l
  induction l with
  | nil =>
    intro p q h
    simp only [List.foldlM_nil, Option.pure_def, Option.some_inj] at h
    cases h
    exact ⟨rfl, rfl, rfl, rfl, rfl, rfl⟩
  | cons a l ih =>
    intro p q h
    rw [List.foldlM_cons] at h
    cases ha : addFwdPrimer p a with
    | none => rw [ha] at h; cases h
    | some p' =>
      rw [ha] at h
      simp only [Option.bind_eq_bind, Option.some_bind] at h
      have h' : l.foldlM addFwdPrimer p' = some q := h
      obtain ⟨e1, e2, e3, e4, e5, e6⟩ := ih p' q h'
      obtain ⟨f1, f2, f3, f4, f5, f6⟩ := addFwdPrimer_fields p p' a ha
      exact ⟨e1.trans f1, e2.trans f2, e3.trans f3, e4.trans f4, e5.trans f5, e6.trans f6⟩

theorem foldlM_addRev_fields :
    ∀ (l : List (Duplex × String)) (p q : Product),
      l.foldlM addRevPrimer p = some q →
      q.name = p.name ∧ q.start = p.start ∧ q.stop = p.stop
        ∧ q.fwd_template = p.fwd_template ∧ q.rev_margin = p.rev_margin
        ∧ q.fwd_margin = p.fwd_margin := by
  intro l
  induction l with
  | nil =>
    intro p q h
    simp only [List.foldlM_nil, Option.pure_def, Option.some_inj] at h
    cases h
    exact ⟨rfl, rfl, rfl, rfl, rfl, rfl⟩
  | cons a l ih =>
    intro p q h
    rw [List.foldlM_cons] at h
    cases ha : addRevPrimer p a with
    | none => rw [ha] at h; cases h
    | some p' =>
      rw [ha] at h
      simp only [Option.bind_eq_bind, Option.some_bind] at h
      have h' : l.foldlM addRevPrimer p' = some q := h
      obtain ⟨e1, e2, e3, e4, e5, e6⟩ := ih p' q h'
      obtain ⟨f1, f2, f3, f4, f5, f6⟩ := addRevPrimer_fields p p' a ha
      exact ⟨e1.trans f1, e2.trans f2, e3.trans f3, e4.trans f4, e5.trans f5, e6.trans f6⟩

theorem foldlM_addFwd_some :
    ∀ (l : List (Duplex × String)) (p : Product),
      (∀ d ∈ l, 1 ≤ d.1.fwd_len) →
      ∃ q, l.foldlM addFwdPrimer p = some q := by
  intro l
  induction l with
  | nil => intro p _; exact ⟨p, rfl⟩
  | cons a l ih =>
    intro p hl
    rw [List.foldlM_cons, addFwdPrimer_eq p a (hl a (by simp))]
    exact ih _ fun d hd => hl d (by simp [hd])

theorem foldlM_addRev_some :
    ∀ (l : List (Duplex × String)) (p : Product),
      (∀ d ∈ l, 1 ≤ d.1.fwd_len) → 1 ≤ p.stop →
      ∃ q, l.foldlM addRevPrimer p = some q := by
  intro l
  induction l with
  | nil => intro p _ _; exact ⟨p, rfl⟩
  | cons a l ih =>
    intro p hl hstop
    rw [List.foldlM_cons, addRevPrimer_eq p a (hl a (by simp)) hstop]
    apply ih _ fun d hd => hl d (by simp [hd])
    split <;> simpa using hstop

theorem mkRegion_some (name : String) (a b : ℤ) (ha : 1 ≤ a) (hab : a ≤ b) :
    mkRegion name a b = some ⟨name, a, b⟩ := by
  unfold mkRegion
  rw [if_neg (by omega), if_neg (by omega)]

theorem mkProduct_fold (P0 : Product) (fwdPrimers revPrimers : List (Duplex × String))
    (hf : ∀ d ∈ fwdPrimers, 1 ≤ d.1.fwd_len) (hr : ∀ d ∈ revPrimers, 1 ≤ d.1.fwd_len)
    (hstop : 1 ≤ P0.stop) :
    ∃ p, (List.foldlM addFwdPrimer P0 fwdPrimers
        >>= fun q => List.foldlM addRevPrimer q revPrimers) = some p
      ∧ p.name = P0.name ∧ p.start = P0.start ∧ p.stop = P0.stop := by
  obtain ⟨p1, hp1⟩ := foldlM_addFwd_some fwdPrimers P0 hf
  obtain ⟨g1, g2, g3, _, _, _⟩ := foldlM_addFwd_fields _ _ _ hp1
  obtain ⟨p2, hp2⟩ := foldlM_addRev_some revPrimers p1 hr (by omega)
  obtain ⟨k1, k2, k3, _, _, _⟩ := foldlM_addRev_fields _ _ _ hp2
  refine ⟨p2, ?_, k1.trans g1, k2.trans g2, k3.trans g3⟩
  rw [hp1]
  simpa using hp2

theorem mkProduct_some (name : String) (start stop : ℤ)
    (fwdPrimers revPrimers : List (Duplex × String))
    (h1 : 1 ≤ start) (h2 : start ≤ stop)
    (hf : ∀ d ∈ fwdPrimers, 1 ≤ d.1.fwd_len)
    (hr : ∀ d ∈ revPrimers, 1 ≤ d.1.fwd_len) :
    ∃ p, mkProduct name start stop fwdPrimers revPrimers = some p
      ∧ p.name = name ∧ p.start = start ∧ p.stop = stop := by
  have hfm : (1 : ℤ) ≤ (if start - 1 < 1 then 1 else start - 1) := by split <;> omega
  unfold mkProduct
  rw [mkRegion_some name start stop (by omega) h2]
  simp only [Option.bind_eq_bind, Option.some_bind]
  rw [mkRegion_some name _ _ hfm le_rfl]
  simp only [Option.bind_eq_bind, Option.some_bind]
  rw [mkRegion_some name (stop + 1) (stop + 1) (by omega) le_rfl]
  simp only [Option.bind_eq_bind, Option.some_bind]
  obtain ⟨p, hp, e1, e2, e3⟩ := mkProduct_fold
    ⟨name, start, stop, 0, 0, [], [],
      if start - 1 < 1 then 1 else start - 1, stop + 1,
      ⟨name, if start - 1 < 1 then 1 else start - 1, if start - 1 < 1 then 1 else start - 1⟩,
      ⟨name, stop + 1, stop + 1⟩⟩ fwdPrimers revPrimers hf hr
    (by show (1 : ℤ) ≤ stop; omega)
  exact ⟨p, hp, e1, e2, e3⟩

/-- Claim C10: constructing a `Product` (`start ≥ 1`, `start ≤ end`,
primer lengths ≥ 1) and attaching forward primers never raises the
`Region` constructor's bounds error, because the footprint coordinates
are clamped at 1; for a single forward primer of length `L` the forward
footprint is exactly `Region(max(start − L, 1), max(start − 1, 1))`. -/
theorem product_fwd_footprint_clamped (name : String) (start stop : ℤ)
    (d : Duplex × String) (fwdPrimers revPrimers : List (Duplex × String))
    (h1 : 1 ≤ start) (h2 : start ≤ stop) (hd : 1 ≤ d.1.fwd_len)
    (hf : ∀ e ∈ fwdPrimers, 1 ≤ e.1.fwd_len)
    (hr : ∀ e ∈ revPrimers, 1 ≤ e.1.fwd_len) :
    (∃ p, mkProduct name start stop fwdPrimers revPrimers = some p)
    ∧ (∃ p, mkProduct name start stop [d] revPrimers = some p
        ∧ p.fwd_template = ⟨name, max (start - d.1.fwd_len) 1, max (start - 1) 1⟩) := by
  constructor
  · obtain ⟨p, hp, -, -, -⟩ := mkProduct_some name start stop fwdPrimers revPrimers h1 h2 hf hr
    exact ⟨p, hp⟩
  · have hfm : (1 : ℤ) ≤ (if start - 1 < 1 then 1 else start - 1) := by split <;> omega
    unfold mkProduct
    rw [mkRegion_some name start stop (by omega) h2]
    simp only [Option.bind_eq_bind, Option.some_bind]
    rw [mkRegion_some name _ _ hfm le_rfl]
    simp only [Option.bind_eq_bind, Option.some_bind]
    rw [mkRegion_some name (stop + 1) (stop + 1) (by omega) le_rfl]
    simp only [Option.bind_eq_bind, Option.some_bind]
    rw [List.foldlM_cons]
    rw [addFwdPrimer_eq _ d hd]
    simp only [List.not_mem_nil, if_false, Option.bind_eq_bind, Option.some_bind,
      List.foldlM_nil]
    have hM : (if start - 1 < 1 then 1 else start - 1) = max (start - 1) 1 := by
      split <;> omega
    set P1 : Product :=
      { name := name, start := start, stop := stop, quantity := 0, cycles := 0,
        fwd_primers := [] ++ [d], rev_primers := [],
        fwd_margin := if start - 1 < 1 then 1 else start - 1, rev_margin := stop + 1,
        fwd_template := regionIAdd
          ⟨name, if start - 1 < 1 then 1 else start - 1, if start - 1 < 1 then 1 else start - 1⟩
          ⟨name, max (start - d.1.fwd_len) 1, max (start - 1) 1⟩,
        rev_template := ⟨name, stop + 1, stop + 1⟩ } with hP1
    obtain ⟨p2, hp2⟩ := foldlM_addRev_some revPrimers P1 hr (by show (1 : ℤ) ≤ stop; omega)
    obtain ⟨-, -, -, k4, -, -⟩ := foldlM_addRev_fields _ _ _ hp2
    refine ⟨p2, hp2, ?_⟩
    rw [k4]
    show regionIAdd _ _ = _
    unfold regionIAdd
    rw [if_neg (by simp)]
    simp only [Region.mk.injEq]
    refine ⟨trivial, ?_, ?_⟩ <;> simp only [hM] <;> omega

/-- Witness for `product_fwd_footprint_clamped`: a primer of length 10 at
`start = 3` yields the forward footprint truncated at position 1. -/
theorem product_fwd_footprint_clamped_witness :
    ∃ p, mkProduct "h" 3 40 [((⟨500, false, "F", 10⟩ : Duplex), "F")]
        [((⟨500, false, "R", 5⟩ : Duplex), "R")] = some p
      ∧ p.fwd_template = ⟨"h", 1, 2⟩ := by
  obtain ⟨-, p, hp, hft⟩ := product_fwd_footprint_clamped "h" 3 40
    ((⟨500, false, "F", 10⟩ : Duplex), "F")
    [((⟨500, false, "F", 10⟩ : Duplex), "F")]
    [((⟨500, false, "R", 5⟩ : Duplex), "R")]
    (by decide) (by decide) (by decide)
    (by intro e he; simp at he; rw [he]; decide)
    (by intro e he; simp at he; rw [he]; decide)
  refine ⟨p, hp, ?_⟩
  rw [hft]
  simp only [Region.mk.injEq]
  refine ⟨trivial, by decide, by decide⟩

theorem alistFind_mem {α β : Type} [DecidableEq α] (l : List (α × β)) (k : α) (v : β)
    (h : alistFind l k = some v) : (k, v) ∈ l := by
  unfold alistFind at h
  cases hf : l.find? (fun kv => kv.1 = k) with
  | none => rw [hf] at h; cases h
  | some kv =>
    rw [hf] at h
    simp only [Option.map_some', Option.some_inj] at h
    have hmem := List.mem_of_find?_eq_some hf
    have hprop := List.find?_some hf
    simp only [decide_eq_true_eq] at hprop
    have hkv : (k, v) = kv := by rw [← hprop, ← h]
    rw [hkv]
    exact hmem

theorem alistSet_mem {α β : Type} [DecidableEq α] (l : List (α × β)) (k : α) (v : β)
    (x : α × β) (h : x ∈ alistSet l k v) : x = (k, v) ∨ x ∈ l := by
  unfold alistSet at h
  split at h
  · obtain ⟨y, hy, hxy⟩ := List.mem_map.mp h
    by_cases hk : y.1 = k
    · left
      rw [← hxy, if_pos hk]
    · right
      rw [← hxy, if_neg hk]
      exact hy
  · rcases List.mem_append.mp h with h | h
    · right; exact h
    · left; simpa using h

theorem mkProduct_fields (name : String) (start stop : ℤ)
    (fwdPrimers revPrimers : List (Duplex × String)) (p : Product)
    (h : mkProduct name start stop fwdPrimers revPrimers = some p) :
    p.name = name ∧ p.start = start ∧ p.stop = stop := by
  unfold mkProduct at h
  cases h0 : mkRegion name start stop with
  | none => rw [h0] at h; cases h
  | some base =>
    rw [h0] at h
    simp only [Option.bind_eq_bind, Option.some_bind] at h
    cases h1 : mkRegion name (if start - 1 < 1 then 1 else start - 1)
        (if start - 1 < 1 then 1 else start - 1) with
    | none => rw [h1] at h; cases h
    | some fwdT =>
      rw [h1] at h
      simp only [Option.bind_eq_bind, Option.some_bind] at h
      cases h2 : mkRegion name (stop + 1) (stop + 1) with
      | none => rw [h2] at h; cases h
      | some revT =>
        rw [h2] at h
        simp only [Option.bind_eq_bind, Option.some_bind] at h
        cases h3 : List.foldlM addFwdPrimer
            ⟨name, start, stop, 0, 0, [], [],
              if start - 1 < 1 then 1 else start - 1, stop + 1, fwdT, revT⟩ fwdPrimers with
        | none => rw [h3] at h; cases h
        | some p1 =>
          rw [h3] at h
          simp only [Option.bind_eq_bind, Option.some_bind] at h
          obtain ⟨g1, g2, g3, -, -, -⟩ := foldlM_addFwd_fields _ _ _ h3
          obtain ⟨k1, k2, k3, -, -, -⟩ := foldlM_addRev_fields _ _ _ h
          exact ⟨k1.trans g1, k2.trans g2, k3.trans g3⟩

theorem productIAdd_same_key (s T r : Product)
    (hn : s.name = T.name) (hs : s.start = T.start) (he : s.stop = T.stop)
    (h : productIAdd s T = some r) :
    r.name = s.name ∧ r.start = s.start ∧ r.stop = s.stop := by
  unfold productIAdd at h
  rw [if_neg (by simp [hn])] at h
  rw [if_neg (by omega), if_pos hs] at h
  cases h1 : List.foldlM addFwdPrimer s T.fwd_primers with
  | none => rw [h1] at h; cases h
  | some s1 =>
    rw [h1] at h
    simp only [Option.bind_eq_bind, Option.some_bind] at h
    obtain ⟨a1, a2, a3, -, -, -⟩ := foldlM_addFwd_fields _ _ _ h1
    rw [if_neg (by omega), if_pos (by omega : s1.stop = T.stop)] at h
    cases h2 : List.foldlM addRevPrimer s1 T.rev_primers with
    | none => rw [h2] at h; cases h
    | some s2 =>
      rw [h2] at h
      simp only [Option.bind_eq_bind, Option.some_bind, Option.some_inj] at h
      obtain ⟨b1, b2, b3, -, -, -⟩ := foldlM_addRev_fields _ _ _ h2
      rw [← h]
      exact ⟨b1.trans a1, by omega, by omega⟩

/-- Invariant (a) of the spec: every stored product satisfies
`min_amplicon ≤ end − start + 1 ≤ max_amplicon`. -/
def ampliconBoundsOk (params : SimParams) (st : SimState) : Prop :=
  ∀ e ∈ st.products, ∀ kp ∈ e.2,
    params.min_amplicon ≤ kp.2.stop - kp.2.start + 1
      ∧ kp.2.stop - kp.2.start + 1 ≤ params.max_amplicon

/-- Bookkeeping invariant: every product is stored under the key
`(name, start, end)` built from its own fields. -/
def productKeysOk (st : SimState) : Prop :=
  ∀ e ∈ st.products, ∀ kp ∈ e.2, kp.1 = (kp.2.name, kp.2.start, kp.2.stop)

/-- Claim C6: `add_product` returns `False` without storing anything when
the candidate amplicon length is out of bounds, and every product stored
after any `add_product` call (duplicate-key merges via `__iadd__`
included) satisfies `min_amplicon ≤ end − start + 1 ≤ max_amplicon`. -/
theorem add_product_amplicon_bounds (params : SimParams) (st : SimState)
    (hit : String) (start stop : ℤ) (fwdD revD : List (Duplex × String))
    (hinv : ampliconBoundsOk params st) (hkeys : productKeysOk st) :
    (¬(params.min_amplicon ≤ stop - start + 1 ∧ stop - start + 1 ≤ params.max_amplicon) →
      add_product params st hit start stop fwdD revD = some (false, st))
    ∧ ∀ b st', add_product params st hit start stop fwdD revD = some (b, st') →
        ampliconBoundsOk params st' ∧ productKeysOk st' := by
  constructor
  · intro hlen
    unfold add_product
    rw [if_pos hlen]
  · intro b st' h
    unfold add_product at h
    split at h
    · simp only [Option.some_inj, Prod.mk.injEq] at h
      rw [← h.2]
      exact ⟨hinv, hkeys⟩
    next hlen =>
      rw [not_not] at hlen
      dsimp only at h
      split at h
      · simp only [Option.some_inj, Prod.mk.injEq] at h
        rw [← h.2]
        exact ⟨hinv, hkeys⟩
      · cases hmk : mkProduct hit start stop (validDuplexes params fwdD)
            (validDuplexes params revD) with
        | none => rw [hmk] at h; simp at h
        | some newP =>
          rw [hmk] at h
          simp only [Option.bind_eq_bind, Option.some_bind] at h
          obtain ⟨hpn, hps, hpe⟩ := mkProduct_fields _ _ _ _ _ _ hmk
          cases hfind : alistFind ((alistFind st.products hit).getD [])
              (newP.name, newP.start, newP.stop) with
          | none =>
            rw [hfind] at h
            simp only [Option.bind_eq_bind, Option.some_bind, Option.some_inj,
              Prod.mk.injEq] at h
            obtain ⟨-, hst⟩ := h
            rw [← hst]
            constructor
            · intro e he kp hkp
              rcases alistSet_mem _ _ _ _ he with rfl | he'
              · rcases alistSet_mem _ _ _ _ hkp with rfl | hkp'
                · constructor <;> simp only [hps, hpe] <;> omega
                · cases hhp : alistFind st.products hit with
                  | none => rw [hhp] at hkp'; cases hkp'
                  | some l =>
                    rw [hhp] at hkp'
                    exact hinv _ (alistFind_mem _ _ _ hhp) kp hkp'
              · exact hinv _ he' kp hkp
            · intro e he kp hkp
              rcases alistSet_mem _ _ _ _ he with rfl | he'
              · rcases alistSet_mem _ _ _ _ hkp with rfl | hkp'
                · rfl
                · cases hhp : alistFind st.products hit with
                  | none => rw [hhp] at hkp'; cases hkp'
                  | some l =>
                    rw [hhp] at hkp'
                    exact hkeys _ (alistFind_mem _ _ _ hhp) kp hkp'
              · exact hkeys _ he' kp hkp
          | some existing =>
            rw [hfind] at h
            dsimp only at h
            -- key consistency for the stored product
            have hmemHP : ((newP.name, newP.start, newP.stop), existing)
                ∈ (alistFind st.products hit).getD [] := alistFind_mem _ _ _ hfind
            have hexkey : ((newP.name, newP.start, newP.stop) : ProductKey)
                = (existing.name, existing.start, existing.stop) := by
              cases hhp : alistFind st.products hit with
              | none => rw [hhp] at hmemHP; cases hmemHP
              | some l =>
                rw [hhp] at hmemHP
                exact hkeys _ (alistFind_mem _ _ _ hhp) _ hmemHP
            have hexn : existing.name = newP.name := by
              have := congrArg Prod.fst hexkey; simpa using this.symm
            have hexs : existing.start = newP.start := by
              have := congrArg (fun k : ProductKey => k.2.1) hexkey; simpa using this.symm
            have hexe : existing.stop = newP.stop := by
              have := congrArg (fun k : ProductKey => k.2.2) hexkey; simpa using this.symm
            cases hpi : productIAdd existing newP with
            | none => rw [hpi] at h; simp at h
            | some merged =>
              rw [hpi] at h
              simp only [Option.bind_eq_bind, Option.some_bind, Option.some_inj,
                Prod.mk.injEq] at h
              obtain ⟨-, hst⟩ := h
              rw [← hst]
              obtain ⟨hmn, hms, hme⟩ := productIAdd_same_key _ _ _ hexn hexs hexe hpi
              constructor
              · intro e he kp hkp
                rcases alistSet_mem _ _ _ _ he with rfl | he'
                · rcases alistSet_mem _ _ _ _ hkp with rfl | hkp'
                  · constructor <;> simp only [hms, hme, hexs, hexe, hps, hpe] <;> omega
                  · cases hhp : alistFind st.products hit with
                    | none => rw [hhp] at hkp'; cases hkp'
                    | some l =>
                      rw [hhp] at hkp'
                      exact hinv _ (alistFind_mem _ _ _ hhp) kp hkp'
                · exact hinv _ he' kp hkp
              · intro e he kp hkp
                rcases alistSet_mem _ _ _ _ he with rfl | he'
                · rcases alistSet_mem _ _ _ _ hkp with rfl | hkp'
                  · simp only [hmn, hms, hme, hexn, hexs, hexe]
                  · cases hhp : alistFind st.products hit with
                    | none => rw [hhp] at hkp'; cases hkp'
                    | some l =>
                      rw [hhp] at hkp'
                      exact hkeys _ (alistFind_mem _ _ _ hhp) kp hkp'
                · exact hkeys _ he' kp hkp

/-- Claim C9: whenever `add_product` rejects a candidate it returns
`False`, the rejection is one of the three filter conditions (length out
of bounds, no surviving forward duplex, no surviving reverse duplex), and
the simulation state is completely unchanged. -/
theorem add_product_reject_unchanged (params : SimParams) (st : SimState)
    (hit : String) (start stop : ℤ) (fwdD revD : List (Duplex × String)) (st' : SimState)
    (h : add_product params st hit start stop fwdD revD = some (false, st')) :
    st' = st
    ∧ (¬(params.min_amplicon ≤ stop - start + 1 ∧ stop - start + 1 ≤ params.max_amplicon)
        ∨ (validDuplexes params fwdD).isEmpty = true
        ∨ (validDuplexes params revD).isEmpty = true) := by
  unfold add_product at h
  split at h
  next hlen =>
    simp only [Option.some_inj, Prod.mk.injEq, true_and] at h
    exact ⟨h.symm, Or.inl hlen⟩
  next hlen =>
    dsimp only at h
    split at h
    next hval =>
      simp only [Option.some_inj, Prod.mk.injEq, true_and] at h
      exact ⟨h.symm, Or.inr hval⟩
    next hval =>
      exfalso
      cases hmk : mkProduct hit start stop (validDuplexes params fwdD)
          (validDuplexes params revD) with
      | none => rw [hmk] at h; simp at h
      | some newP =>
        rw [hmk] at h
        simp only [Option.bind_eq_bind, Option.some_bind] at h
        cases hfind : alistFind ((alistFind st.products hit).getD [])
            (newP.name, newP.start, newP.stop) with
        | none =>
          rw [hfind] at h
          dsimp only at h
          simp at h
        | some existing =>
          rw [hfind] at h
          dsimp only at h
          cases hpi : productIAdd existing newP with
          | none => rw [hpi] at h; simp at h
          | some merged => rw [hpi] at h; simp at h

/-- Witness for `add_product_reject_unchanged`: an amplicon shorter than
`min_amplicon` is rejected and the state is returned untouched. -/
theorem add_product_reject_unchanged_witness :
    ∃ st', add_product ⟨[⟨["F"], 1⟩], 50, 1000, 0, false, 20⟩ ⟨[], [], false⟩ "h" 1 10 [] []
        = some (false, st') ∧ st' = ⟨[], [], false⟩ := by
  have h : add_product ⟨[⟨["F"], 1⟩], 50, 1000, 0, false, 20⟩ ⟨[], [], false⟩ "h" 1 10 [] []
      = some (false, ⟨[], [], false⟩) := rfl
  exact ⟨_, h,
    (add_product_reject_unchanged ⟨[⟨["F"], 1⟩], 50, 1000, 0, false, 20⟩ ⟨[], [], false⟩
      "h" 1 10 [] [] _ h).1⟩

/-- Witness for `add_product_amplicon_bounds`: an out-of-bounds candidate
is rejected with the state unchanged, and after a successful call the
stored products satisfy the amplicon bounds. -/
theorem add_product_amplicon_bounds_witness :
    (add_product ⟨[⟨["F", "R"], 1⟩], 1, 1000, 0, false, 20⟩ ⟨[], [], false⟩ "h" 1 5000 [] []
        = some (false, ⟨[], [], false⟩))
    ∧ ∃ st', add_product ⟨[⟨["F", "R"], 1⟩], 1, 1000, 0, false, 20⟩ ⟨[], [], false⟩ "h" 100 200
        [((⟨1000, false, "F", 5⟩ : Duplex), "F")] [((⟨1000, false, "R", 5⟩ : Duplex), "R")]
        = some (true, st')
      ∧ ampliconBoundsOk ⟨[⟨["F", "R"], 1⟩], 1, 1000, 0, false, 20⟩ st' := by
  have hinv : ampliconBoundsOk ⟨[⟨["F", "R"], 1⟩], 1, 1000, 0, false, 20⟩ ⟨[], [], false⟩ := by
    intro e he
    cases he
  have hkeys : productKeysOk ⟨[], [], false⟩ := by
    intro e he
    cases he
  constructor
  · exact (add_product_amplicon_bounds _ _ "h" 1 5000 [] [] hinv hkeys).1 (by decide)
  · refine ⟨_, rfl, ?_⟩
    exact ((add_product_amplicon_bounds ⟨[⟨["F", "R"], 1⟩], 1, 1000, 0, false, 20⟩
      ⟨[], [], false⟩ "h" 100 200
      [((⟨1000, false, "F", 5⟩ : Duplex), "F")] [((⟨1000, false, "R", 5⟩ : Duplex), "R")]
      hinv hkeys).2 true _ rfl).1


theorem regionIAdd_start_of_le (c T : Region) (h : c.start ≤ T.start) :
    (regionIAdd c T).start = c.start := by
  unfold regionIAdd
  split
  · rfl
  · show min c.start T.start = c.start
    omega

theorem foldl_compact_revsorted :
    ∀ (l acc : List Region),
      List.Pairwise (fun a b : Region => b.start ≤ a.start) acc →
      List.Pairwise (fun a b : Region => a.start ≤ b.start) l →
      (∀ c ∈ acc, ∀ T ∈ l, c.start ≤ T.start) →
      List.Pairwise (fun a b : Region => b.start ≤ a.start) (l.foldl compactStep acc) := by
  intro l
  induction l with
  | nil =>
    intro acc ha _ _
    simpa using ha
  | cons T l ih =>
    intro acc ha hl hcross
    rw [List.foldl_cons]
    have hlT := List.pairwise_cons.mp hl
    apply ih
    · cases acc with
      | nil => simp [compactStep]
      | cons c rest =>
        have hcT : c.start ≤ T.start := hcross c (by simp) T (by simp)
        have hac := List.pairwise_cons.mp ha
        show List.Pairwise _ (if overlaps T c then regionIAdd c T :: rest else T :: c :: rest)
        by_cases hov : overlaps T c
        · rw [if_pos hov]
          apply List.pairwise_cons.mpr
          refine ⟨?_, hac.2⟩
          intro x hx
          rw [regionIAdd_start_of_le c T hcT]
          exact hac.1 x hx
        · rw [if_neg hov]
          apply List.pairwise_cons.mpr
          constructor
          · intro x hx
            rcases List.mem_cons.mp hx with rfl | hx'
            · exact hcT
            · exact le_trans (hac.1 x hx') hcT
          · exact ha
    · exact hlT.2
    · intro c' hc' T' hT'
      have hTT' : T.start ≤ T'.start := hlT.1 T' hT'
      cases acc with
      | nil =>
        simp only [compactStep] at hc'
        rcases List.mem_singleton.mp hc' with rfl
        exact hTT'
      | cons c rest =>
        have hcT : c.start ≤ T.start := hcross c (by simp) T (by simp)
        simp only [compactStep] at hc'
        by_cases hov : overlaps T c
        · rw [if_pos hov] at hc'
          rcases List.mem_cons.mp hc' with rfl | hx'
          · rw [regionIAdd_start_of_le c T hcT]
            exact le_trans hcT hTT'
          · exact hcross c' (by simp [hx']) T' (by simp [hT'])
        · rw [if_neg hov] at hc'
          rcases List.mem_cons.mp hc' with rfl | hx'
          · exact hTT'
          · exact hcross c' (by simp [hx']) T' (by simp [hT'])

theorem sorted_insertionSort_start (l : List Region) :
    List.Pairwise (fun a b : Region => a.start ≤ b.start)
      (l.insertionSort fun a b => a.start ≤ b.start) :=
  @List.sorted_insertionSort Region (fun a b : Region => a.start ≤ b.start) _
    ⟨fun a b => le_total a.start b.start⟩ ⟨fun _ _ _ hab hbc => le_trans hab hbc⟩ l

theorem add_template_sorted (templates : List (String × List Region)) (hit : String)
    (newTemplate : Region)
    (hinv : ∀ e ∈ templates, List.Pairwise (fun a b : Region => a.start ≤ b.start) e.2) :
    ∀ e ∈ add_template templates hit newTemplate,
      List.Pairwise (fun a b : Region => a.start ≤ b.start) e.2 := by
  intro e he
  unfold add_template at he
  dsimp only at he
  rcases alistSet_mem _ _ _ _ he with rfl | he'
  · dsimp only
    have hsorted := sorted_insertionSort_start
      (((alistFind templates hit).getD []) ++ [newTemplate])
    cases hs : (((alistFind templates hit).getD []) ++ [newTemplate]).insertionSort
        (fun a b => a.start ≤ b.start) with
    | nil => simp
    | cons hd tl =>
      rw [hs] at hsorted
      have hhd := List.pairwise_cons.mp hsorted
      rw [List.pairwise_reverse]
      apply foldl_compact_revsorted (hd :: tl) [hd]
      · simp
      · exact hsorted
      · intro c hc T hT
        rcases List.mem_singleton.mp hc with rfl
        rcases List.mem_cons.mp hT with rfl | hT'
        · exact le_refl _
        · exact hhd.1 T hT'
  · exact hinv e he'

theorem add_product_templates_cases (params : SimParams) (st : SimState)
    (hit : String) (start stop : ℤ) (fwdD revD : List (Duplex × String))
    (b : Bool) (st' : SimState)
    (h : add_product params st hit start stop fwdD revD = some (b, st')) :
    st'.templates = st.templates
    ∨ ∃ x y, st'.templates = add_template (add_template st.templates hit x) hit y := by
  unfold add_product at h
  split at h
  · simp only [Option.some_inj, Prod.mk.injEq] at h
    left
    rw [← h.2]
  · dsimp only at h
    split at h
    · simp only [Option.some_inj, Prod.mk.injEq] at h
      left
      rw [← h.2]
    · cases hmk : mkProduct hit start stop (validDuplexes params fwdD)
          (validDuplexes params revD) with
      | none => rw [hmk] at h; simp at h
      | some newP =>
        rw [hmk] at h
        simp only [Option.bind_eq_bind, Option.some_bind] at h
        cases hfind : alistFind ((alistFind st.products hit).getD [])
            (newP.name, newP.start, newP.stop) with
        | none =>
          rw [hfind] at h
          dsimp only at h
          simp only [Option.some_inj, Prod.mk.injEq] at h
          right
          exact ⟨newP.fwd_template, newP.rev_template, by rw [← h.2]⟩
        | some existing =>
          rw [hfind] at h
          dsimp only at h
          cases hpi : productIAdd existing newP with
          | none => rw [hpi] at h; simp at h
          | some merged =>
            rw [hpi] at h
            simp only [Option.bind_eq_bind, Option.some_bind, Option.some_inj,
              Prod.mk.injEq] at h
            right
            exact ⟨merged.fwd_template, merged.rev_template, by rw [← h.2]⟩

/-- Claim C5 (amended): after every successful `add_product`, each
template-footprint list is sorted ascending by start; but compaction uses
the buggy `overlaps` predicate, which misses a footprint strictly nested
inside its predecessor, so the entries need not be pairwise disjoint (see
the counterexample). -/
theorem add_product_templates_sorted (params : SimParams) (st : SimState)
    (hit : String) (start stop : ℤ) (fwdD revD : List (Duplex × String))
    (b : Bool) (st' : SimState)
    (hinv : ∀ e ∈ st.templates, List.Pairwise (fun a b : Region => a.start ≤ b.start) e.2)
    (h : add_product params st hit start stop fwdD revD = some (b, st')) :
    ∀ e ∈ st'.templates, List.Pairwise (fun a b : Region => a.start ≤ b.start) e.2 := by
  rcases add_product_templates_cases params st hit start stop fwdD revD b st' h with
    heq | ⟨x, y, heq⟩
  · rw [heq]
    exact hinv
  · rw [heq]
    exact add_template_sorted _ hit y (add_template_sorted _ hit x hinv)

/-- Claim C5 (refutation): two successful `add_product` calls leave the
template-footprint list of hit `"h"` holding the overlapping entries
`[50, 99]` and `[61, 80]` — the nested footprint of the second product is
not merged, because `overlaps` fails on strict nesting. -/
theorem add_template_nested_not_merged :
    ((add_product ⟨[⟨["F1", "F2", "R1", "R2"], 1⟩], 1, 1000, 0, false, 20⟩ ⟨[], [], false⟩
        "h" 100 200 [((⟨1000, false, "F1", 50⟩ : Duplex), "F1")]
        [((⟨1000, false, "R1", 10⟩ : Duplex), "R1")]).bind fun r1 =>
      (add_product ⟨[⟨["F1", "F2", "R1", "R2"], 1⟩], 1, 1000, 0, false, 20⟩ r1.2
          "h" 81 300 [((⟨1000, false, "F2", 20⟩ : Duplex), "F2")]
          [((⟨1000, false, "R2", 10⟩ : Duplex), "R2")]).map fun r2 =>
        (r1.1, r2.1, alistFind r2.2.templates "h"))
    = some (true, true, some [⟨"h", 50, 99⟩, ⟨"h", 61, 80⟩, ⟨"h", 201, 210⟩, ⟨"h", 301, 310⟩])
    ∧ intervalsIntersect ⟨"h", 50, 99⟩ ⟨"h", 61, 80⟩ = true := by
  constructor
  · rfl
  · decide

/-- Witness for `add_product_templates_sorted` at a concrete successful
call. -/
theorem add_product_templates_sorted_witness :
    ∃ st', add_product ⟨[⟨["Fw", "Rw"], 1⟩], 1, 1000, 0, false, 20⟩ ⟨[], [], false⟩ "w" 100 200
        [((⟨1000, false, "Fw", 5⟩ : Duplex), "Fw")] [((⟨1000, false, "Rw", 5⟩ : Duplex), "Rw")]
        = some (true, st')
      ∧ ∀ e ∈ st'.templates, List.Pairwise (fun a b : Region => a.start ≤ b.start) e.2 := by
  refine ⟨_, rfl, ?_⟩
  exact add_product_templates_sorted ⟨[⟨["Fw", "Rw"], 1⟩], 1, 1000, 0, false, 20⟩
    ⟨[], [], false⟩ "w" 100 200
    [((⟨1000, false, "Fw", 5⟩ : Duplex), "Fw")] [((⟨1000, false, "Rw", 5⟩ : Duplex), "Rw")]
    true _ (by intro e he; cases he) rfl


/-! ## Cycle kinetics engine (`PCR_Simulation.run`, cycles 4…N, and
`PCR_Simulation._correct_cycle`)

The per-template kinetic state `cur_state = [dNTP, primers, variants]` is
embedded with primer sequences keyed by `ℕ`: the primer dictionary is a
total function `ℕ → Option ℚ` (`none` models Python `None`, a depleted
primer) together with the finite key list `pids`; the product length
`len(self._products[hit][var[3]])` is stored in each variant row as
`plen` (product start/end never change during `run`). The stamping of
`Product.cycles` and of `reaction_ends['cycles']`/`['dNTP']` — metadata
not touched by the kinetics — is not modelled. -/

/-- One pair-variant row `[fwd_id, rev_id, concentration, product_key]` of
the per-template `variants` list. -/
structure PVariant where
  fwd : ℕ
  rev : ℕ
  conc : ℚ
  plen : ℚ
deriving DecidableEq

/-- `cur_primers[k] -= x` (the entry is non-`None` at every use site). -/
def decPrimer (pr : ℕ → Option ℚ) (k : ℕ) (x : ℚ) : ℕ → Option ℚ :=
  Function.update pr k ((pr k).map fun c => c - x)

/-- `cur_primers[k] += x` (the entry is non-`None` at every use site). -/
def incPrimer (pr : ℕ → Option ℚ) (k : ℕ) (x : ℚ) : ℕ → Option ℚ :=
  Function.update pr k ((pr k).map fun c => c + x)

/-- Result of one pass over the variant list. -/
structure StepRes where
  dNTP : ℚ
  primers : ℕ → Option ℚ
  variants : List PVariant
  idle : Bool

/-- The uncorrected general PCR cycle (the `for var in cur_variants`
loop of `PCR_Simulation.run`): every variant whose two primers are
non-`None` consumes both primers and dNTP and doubles its concentration;
`idle` records whether nothing was synthesised. -/
def normalCycle (dntp : ℚ) (primers : ℕ → Option ℚ) : List PVariant → StepRes
  | [] => ⟨dntp, primers, [], true⟩
  | v :: vs =>
    if (primers v.fwd).isNone || (primers v.rev).isNone then
      let r := normalCycle dntp primers vs
      ⟨r.dNTP, r.primers, v :: r.variants, r.idle⟩
    else
      let r := normalCycle (dntp - v.conc * 2 * v.plen)
        (decPrimer (decPrimer primers v.fwd v.conc) v.rev v.conc) vs
      ⟨r.dNTP, r.primers, { v with conc := v.conc + v.conc } :: r.variants, false⟩

/-- Result of the two correction passes of `_correct_cycle`. -/
structure FixRes where
  dNTP : ℚ
  primers : ℕ → Option ℚ
  variants : List PVariant

/-- Primer-depletion correction pass of `_correct_cycle`: for every
variant pair `(var0, var1)` of `zip(prev_variants, cur_variants)` that
touches a depleted primer (and whose primers are non-`None`), restore the
subtracted amounts and re-apply them scaled by the smaller consume
ratio. -/
def fixVariants (depl : ℕ → Bool) (ratio : ℕ → ℚ) :
    ℚ → (ℕ → Option ℚ) → List (PVariant × PVariant) → FixRes
  | d, pr, [] => ⟨d, pr, []⟩
  | d, pr, (v0, v1) :: rest =>
    if !depl v1.fwd && !depl v1.rev then
      let r := fixVariants depl ratio d pr rest
      ⟨r.dNTP, r.primers, v1 :: r.variants⟩
    else if (pr v1.fwd).isNone || (pr v1.rev).isNone then
      let r := fixVariants depl ratio d pr rest
      ⟨r.dNTP, r.primers, v1 :: r.variants⟩
    else
      let cr0 := if depl v1.fwd then ratio v1.fwd else 1
      let cr1 := if depl v1.rev then ratio v1.rev else 1
      let realAdd := (v1.conc - v0.conc) * min cr0 cr1
      let pr1 := incPrimer (incPrimer pr v1.fwd v0.conc) v1.rev v0.conc
      let d1 := d + v0.conc * 2 * v1.plen
      let pr2 := decPrimer (decPrimer pr1 v1.fwd realAdd) v1.rev realAdd
      let d2 := d1 - realAdd * 2 * v1.plen
      let r := fixVariants depl ratio d2 pr2 rest
      ⟨r.dNTP, r.primers, { v1 with conc := v0.conc + realAdd } :: r.variants⟩

/-- Polymerase/dNTP correction pass of `_correct_cycle`: with the state
reset to the previous cycle, every synthesis is re-applied scaled
uniformly by `consume_ratio`. -/
def scaleVariants (cr : ℚ) :
    ℚ → (ℕ → Option ℚ) → List (PVariant × PVariant) → FixRes
  | d, pr, [] => ⟨d, pr, []⟩
  | d, pr, (v0, v1) :: rest =>
    if (pr v1.fwd).isNone || (pr v1.rev).isNone then
      let r := scaleVariants cr d pr rest
      ⟨r.dNTP, r.primers, v1 :: r.variants⟩
    else
      let realAdd := (v1.conc - v0.conc) * cr
      let pr1 := decPrimer (decPrimer pr v1.fwd realAdd) v1.rev realAdd
      let d1 := d - realAdd * 2 * v1.plen
      let r := scaleVariants cr d1 pr1 rest
      ⟨r.dNTP, r.primers, { v1 with conc := v0.conc + realAdd } :: r.variants⟩

/-- `self._reaction_ends[hit_id]['poly']` bookkeeping; the range list is
kept reversed (most recent shortage range first). -/
def recordShortage (cycle : ℕ) : List (ℕ × ℕ) → List (ℕ × ℕ)
  | [] => [(cycle, cycle)]
  | (s, e) :: rest =>
    if cycle - e > 1 then (cycle, cycle) :: (s, e) :: rest else (s, cycle) :: rest

/-- The final loop of `_correct_cycle`: every dictionary entry that is
`None` or ≤ 0 is set to `None` (in Python 2, `None <= 0` is true, so
`None` entries stay `None`). -/
def noneOut (pids : List ℕ) (pr : ℕ → Option ℚ) : ℕ → Option ℚ := fun p =>
  if p ∈ pids then
    match pr p with
    | none => none
    | some v => if v ≤ 0 then none else some v
  else pr p

/-- Result of `_correct_cycle` on the mutable state it touches. -/
structure CorrectRes where
  dNTP : ℚ
  primers : ℕ → Option ℚ
  variants : List PVariant
  poly : List (ℕ × ℕ)

/-- Python local `depleted_primers` as a predicate: a dictionary entry
that is non-`None` and negative after the uncorrected cycle. -/
def deplOf (pids : List ℕ) (curP : ℕ → Option ℚ) (p : ℕ) : Bool :=
  decide (p ∈ pids) && (curP p).isSome && decide ((curP p).getD 0 < 0)

/-- Python `consume_ratio = prev / (prev − cur)` for a depleted primer. -/
def ratioOf (prevP curP : ℕ → Option ℚ) (p : ℕ) : ℚ :=
  (prevP p).getD 0 / ((prevP p).getD 0 - (curP p).getD 0)

/-- The `if depleted_primers:` block of `_correct_cycle`: when some primer
was overdrawn, run the restore-and-rescale pass over
`zip(prev_variants, cur_variants)`. -/
def fixedOf (pids : List ℕ) (prevP : ℕ → Option ℚ) (prevV : List PVariant)
    (curD : ℚ) (curP : ℕ → Option ℚ) (curV : List PVariant) : FixRes :=
  if pids.any (deplOf pids curP) then
    fixVariants (deplOf pids curP) (ratioOf prevP curP) curD curP (prevV.zip curV)
  else ⟨curD, curP, curV⟩

/-- `for p_id in depleted_primers: cur_primers[p_id] = 0`. -/
def zeroDepleted (pids : List ℕ) (curP : ℕ → Option ℚ) (pr : ℕ → Option ℚ) :
    ℕ → Option ℚ := fun p =>
  if p ∈ pids ∧ deplOf pids curP p then some 0 else pr p

/-- `max_consumptioin = polymerase * 10e-9 * elongation_time / 30`
(`10e-9` is `10⁻⁸`). -/
def maxConsumptionOf (polymerase elongation : ℚ) : ℚ :=
  polymerase * (1 / 10 ^ 8) * elongation / 30

/-- `cur_primers.update(prev_primers)`: every dictionary key takes its
previous-cycle value. -/
def restoredOf (pids : List ℕ) (prevP pr : ℕ → Option ℚ) : ℕ → Option ℚ := fun p =>
  if p ∈ pids then prevP p else pr p

/-- `PCR_Simulation._correct_cycle`. -/
def correct_cycle (pids : List ℕ) (polymerase elongation : ℚ) (cycle : ℕ)
    (poly : List (ℕ × ℕ)) (prevD : ℚ) (prevP : ℕ → Option ℚ) (prevV : List PVariant)
    (curD : ℚ) (curP : ℕ → Option ℚ) (curV : List PVariant) : CorrectRes :=
  let fixed := fixedOf pids prevP prevV curD curP curV
  let p2 := zeroDepleted pids curP fixed.primers
  let consumption := prevD - fixed.dNTP
  let maxConsumption := maxConsumptionOf polymerase elongation
  let poly2 := if maxConsumption < consumption then recordShortage cycle poly else poly
  if maxConsumption < consumption ∨ fixed.dNTP < 0 then
    let cr := min (maxConsumption / consumption) (prevD / consumption)
    let scaled := scaleVariants cr prevD (restoredOf pids prevP p2) (prevV.zip fixed.variants)
    ⟨scaled.dNTP, noneOut pids scaled.primers, scaled.variants, poly2⟩
  else
    ⟨fixed.dNTP, noneOut pids p2, fixed.variants, poly2⟩

/-- Kinetic state at a cycle boundary. -/
structure KineticState where
  dNTP : ℚ
  primers : ℕ → Option ℚ
  variants : List PVariant
  poly : List (ℕ × ℕ)

/-- One iteration of the cycle loop of `PCR_Simulation.run` (cycles 4…N):
the uncorrected pass, the idle check (`break` modelled as `none`), then
`_correct_cycle` on the snapshot. -/
def pcrCycle (pids : List ℕ) (polymerase elongation : ℚ) (cycle : ℕ)
    (s : KineticState) : Option KineticState :=
  let n := normalCycle s.dNTP s.primers s.variants
  if n.idle then none
  else
    let c := correct_cycle pids polymerase elongation cycle s.poly
      s.dNTP s.primers s.variants n.dNTP n.primers n.variants
    some ⟨c.dNTP, c.primers, c.variants, c.poly⟩

/-- The cycle loop `for cycle in range(4, num_cycles + 1)` with its two
exits (idle cycle; dNTP exhausted), driven by the remaining cycle count. -/
def runCycles (pids : List ℕ) (polymerase elongation : ℚ) :
    ℕ → KineticState → ℕ → KineticState
  | _, s, 0 => s
  | cycle, s, fuel + 1 =>
    match pcrCycle pids polymerase elongation cycle s with
    | none => s
    | some s' =>
      if s'.dNTP ≤ 0 then s' else runCycles pids polymerase elongation (cycle + 1) s' fuel


/-- Total dNTP consumption encoded by a `zip(prev_variants, cur_variants)`
pair list: each pair contributes `(Δconcentration) × 2 × amplicon length`. -/
def conSum (l : List (PVariant × PVariant)) : ℚ :=
  (l.map fun q => (q.2.conc - q.1.conc) * 2 * q.1.plen).sum

/-- Relation between a variant row before and after the uncorrected
cycle: ids and length unchanged; the concentration doubled iff both
primers were available. -/
def PairN (pr : ℕ → Option ℚ) (v0 v1 : PVariant) : Prop :=
  v1.fwd = v0.fwd ∧ v1.rev = v0.rev ∧ v1.plen = v0.plen
  ∧ (if ((pr v0.fwd).isNone || (pr v0.rev).isNone) = true then v1.conc = v0.conc
     else v1.conc = v0.conc + v0.conc)

/-- Relation between a variant row before the cycle and after a
correction pass: ids and length unchanged, the concentration did not
decrease, and a variant with an unavailable primer is untouched. -/
def PairF (pr : ℕ → Option ℚ) (v0 v1 : PVariant) : Prop :=
  v1.fwd = v0.fwd ∧ v1.rev = v0.rev ∧ v1.plen = v0.plen
  ∧ v0.conc ≤ v1.conc
  ∧ (((pr v0.fwd).isNone || (pr v0.rev).isNone) = true → v1.conc = v0.conc)

theorem isNone_map {α β : Type} (f : α → β) (x : Option α) :
    (x.map f).isNone = x.isNone := by
  cases x <;> rfl

theorem decPrimer_isNone (pr : ℕ → Option ℚ) (k : ℕ) (x : ℚ) (p : ℕ) :
    ((decPrimer pr k x) p).isNone = (pr p).isNone := by
  unfold decPrimer
  rw [Function.update_apply]
  split
  · next h => rw [h, isNone_map]
  · rfl

theorem incPrimer_isNone (pr : ℕ → Option ℚ) (k : ℕ) (x : ℚ) (p : ℕ) :
    ((incPrimer pr k x) p).isNone = (pr p).isNone := by
  unfold incPrimer
  rw [Function.update_apply]
  split
  · next h => rw [h, isNone_map]
  · rfl

theorem PairN_congr (pr pr' : ℕ → Option ℚ)
    (h : ∀ p, (pr' p).isNone = (pr p).isNone) (v0 v1 : PVariant) :
    PairN pr' v0 v1 → PairN pr v0 v1 := by
  intro hp
  unfold PairN at *
  rw [h, h] at hp
  exact hp

theorem PairF_congr (pr pr' : ℕ → Option ℚ)
    (h : ∀ p, (pr' p).isNone = (pr p).isNone) (v0 v1 : PVariant) :
    PairF pr' v0 v1 → PairF pr v0 v1 := by
  intro hp
  unfold PairF at *
  rw [h, h] at hp
  exact hp

theorem normalCycle_primers_isNone (vs : List PVariant) :
    ∀ (d : ℚ) (pr : ℕ → Option ℚ) (p : ℕ),
      ((normalCycle d pr vs).primers p).isNone = (pr p).isNone := by
  induction vs with
  | nil => intro d pr p; rfl
  | cons v vs ih =>
    intro d pr p
    unfold normalCycle
    split
    · exact ih d pr p
    · rw [ih _ _ p, decPrimer_isNone, decPrimer_isNone]

theorem normalCycle_variants_length (vs : List PVariant) :
    ∀ (d : ℚ) (pr : ℕ → Option ℚ),
      (normalCycle d pr vs).variants.length = vs.length := by
  induction vs with
  | nil => intro d pr; rfl
  | cons v vs ih =>
    intro d pr
    unfold normalCycle
    split
    · simpa using ih d pr
    · simpa using ih _ _

theorem normalCycle_dNTP (vs : List PVariant) :
    ∀ (d : ℚ) (pr : ℕ → Option ℚ),
      (normalCycle d pr vs).dNTP = d - conSum (vs.zip (normalCycle d pr vs).variants) := by
  induction vs with
  | nil => intro d pr; simp [normalCycle, conSum]
  | cons v vs ih =>
    intro d pr
    unfold normalCycle
    split
    · show (normalCycle d pr vs).dNTP = d - conSum ((v, v) :: vs.zip (normalCycle d pr vs).variants)
      rw [ih d pr]
      simp only [conSum, List.map_cons, List.sum_cons]
      ring
    · show (normalCycle _ _ vs).dNTP
        = d - conSum ((v, { v with conc := v.conc + v.conc })
            :: vs.zip (normalCycle _ _ vs).variants)
      rw [ih _ _]
      simp only [conSum, List.map_cons, List.sum_cons]
      ring

theorem normalCycle_pairs (vs : List PVariant) :
    ∀ (d : ℚ) (pr : ℕ → Option ℚ),
      ∀ q ∈ vs.zip (normalCycle d pr vs).variants, PairN pr q.1 q.2 := by
  induction vs with
  | nil => intro d pr q hq; cases hq
  | cons v vs ih =>
    intro d pr q hq
    unfold normalCycle at hq
    split at hq
    next hno =>
      rcases List.mem_cons.mp hq with rfl | hq'
      · refine ⟨rfl, rfl, rfl, ?_⟩
        rw [if_pos (by simpa using hno)]
      · exact ih d pr q hq'
    next hno =>
      rcases List.mem_cons.mp hq with rfl | hq'
      · refine ⟨rfl, rfl, rfl, ?_⟩
        rw [if_neg (by simpa using hno)]
      · refine PairN_congr pr _ ?_ q.1 q.2 (ih _ _ q hq')
        intro p
        rw [decPrimer_isNone, decPrimer_isNone]


theorem fixVariants_primers_isNone (depl : ℕ → Bool) (ratio : ℕ → ℚ)
    (zl : List (PVariant × PVariant)) :
    ∀ (d : ℚ) (pr : ℕ → Option ℚ) (p : ℕ),
      ((fixVariants depl ratio d pr zl).primers p).isNone = (pr p).isNone := by
  induction zl with
  | nil => intro d pr p; rfl
  | cons q rest ih =>
    intro d pr p
    obtain ⟨v0, v1⟩ := q
    unfold fixVariants
    split
    · exact ih d pr p
    · split
      · exact ih d pr p
      · rw [ih _ _ p, decPrimer_isNone, decPrimer_isNone, incPrimer_isNone, incPrimer_isNone]

theorem fixVariants_variants_length (depl : ℕ → Bool) (ratio : ℕ → ℚ)
    (zl : List (PVariant × PVariant)) :
    ∀ (d : ℚ) (pr : ℕ → Option ℚ),
      (fixVariants depl ratio d pr zl).variants.length = zl.length := by
  induction zl with
  | nil => intro d pr; rfl
  | cons q rest ih =>
    intro d pr
    obtain ⟨v0, v1⟩ := q
    unfold fixVariants
    split
    · simpa using ih d pr
    · split
      · simpa using ih d pr
      · simpa using ih _ _

theorem fixVariants_dNTP (depl : ℕ → Bool) (ratio : ℕ → ℚ)
    (zl : List (PVariant × PVariant)) :
    ∀ (d : ℚ) (pr : ℕ → Option ℚ),
      (∀ q ∈ zl, PairN pr q.1 q.2) →
      (fixVariants depl ratio d pr zl).dNTP
        = d + conSum zl
          - conSum ((zl.map Prod.fst).zip (fixVariants depl ratio d pr zl).variants) := by
  induction zl with
  | nil => intro d pr _; simp [fixVariants, conSum]
  | cons q rest ih =>
    intro d pr hp
    obtain ⟨v0, v1⟩ := q
    unfold fixVariants
    split
    · show (fixVariants depl ratio d pr rest).dNTP
        = d + conSum ((v0, v1) :: rest)
          - conSum ((v0, v1) :: (rest.map Prod.fst).zip (fixVariants depl ratio d pr rest).variants)
      rw [ih d pr fun q hq => hp q (by simp [hq])]
      simp only [conSum, List.map_cons, List.sum_cons]
      ring
    · split
      · show (fixVariants depl ratio d pr rest).dNTP
          = d + conSum ((v0, v1) :: rest)
            - conSum ((v0, v1) :: (rest.map Prod.fst).zip (fixVariants depl ratio d pr rest).variants)
        rw [ih d pr fun q hq => hp q (by simp [hq])]
        simp only [conSum, List.map_cons, List.sum_cons]
        ring
      next hno =>
        obtain ⟨hf, hr, hl, hc⟩ := hp (v0, v1) (by simp)
        simp only at hf hr hl hc
        rw [if_neg (by rw [hf, hr] at hno; simpa using hno)] at hc
        rw [ih _ _ fun q hq => PairN_congr _ pr
          (fun p => by
            rw [decPrimer_isNone, decPrimer_isNone, incPrimer_isNone, incPrimer_isNone])
          q.1 q.2 (hp q (by simp [hq]))]
        simp only [List.map_cons, List.zip_cons_cons, conSum, List.sum_cons]
        rw [hl, hc]
        ring


theorem fixVariants_pairs (depl : ℕ → Bool) (ratio : ℕ → ℚ)
    (zl : List (PVariant × PVariant)) :
    ∀ (d : ℚ) (pr : ℕ → Option ℚ),
      (∀ q ∈ zl, PairN pr q.1 q.2) →
      (∀ q ∈ zl, 0 ≤ q.1.conc) →
      (∀ p, depl p = true → 0 ≤ ratio p) →
      ∀ q ∈ (zl.map Prod.fst).zip (fixVariants depl ratio d pr zl).variants,
        PairF pr q.1 q.2 := by
  induction zl with
  | nil => intro d pr _ _ _ q hq; cases hq
  | cons q0 rest ih =>
    intro d pr hp hc hr q hq
    obtain ⟨v0, v1⟩ := q0
    obtain ⟨hf, hrr, hl, hcc⟩ := hp (v0, v1) (by simp)
    simp only at hf hrr hl hcc
    have hc0 : 0 ≤ v0.conc := by
      have := hc (v0, v1) (by simp)
      simpa using this
    unfold fixVariants at hq
    split at hq
    next hskip =>
      simp only [List.map_cons, List.zip_cons_cons] at hq
      rcases List.mem_cons.mp hq with rfl | hq'
      · refine ⟨hf, hrr, hl, ?_, ?_⟩
        · by_cases hn : ((pr v0.fwd).isNone || (pr v0.rev).isNone) = true
          · rw [if_pos hn] at hcc
            rw [hcc]
          · rw [if_neg hn] at hcc
            rw [hcc]
            linarith
        · intro hn
          rw [if_pos hn] at hcc
          exact hcc
      · exact ih d pr (fun q hq => hp q (by simp [hq])) (fun q hq => hc q (by simp [hq]))
          hr q hq'
    · split at hq
      next hno =>
        simp only [List.map_cons, List.zip_cons_cons] at hq
        rcases List.mem_cons.mp hq with rfl | hq'
        · have hn : ((pr v0.fwd).isNone || (pr v0.rev).isNone) = true := by
            rw [← hf, ← hrr]
            exact hno
          rw [if_pos hn] at hcc
          exact ⟨hf, hrr, hl, by rw [hcc], fun _ => hcc⟩
        · exact ih d pr (fun q hq => hp q (by simp [hq])) (fun q hq => hc q (by simp [hq]))
            hr q hq'
      next hno =>
        simp only [List.map_cons, List.zip_cons_cons] at hq
        have hn : ((pr v0.fwd).isNone || (pr v0.rev).isNone) = false := by
          rw [← hf, ← hrr]
          revert hno
          cases ((pr v1.fwd).isNone || (pr v1.rev).isNone) <;> simp
        rw [hn] at hcc
        simp only [Bool.false_eq_true, if_false] at hcc
        rcases List.mem_cons.mp hq with rfl | hq'
        · have hra : 0 ≤ (v1.conc - v0.conc)
              * min (if depl v1.fwd = true then ratio v1.fwd else 1)
                    (if depl v1.rev = true then ratio v1.rev else 1) := by
            apply mul_nonneg
            · rw [hcc]; linarith
            · apply le_min
              · split
                next hd => exact hr _ hd
                next => linarith
              · split
                next hd => exact hr _ hd
                next => linarith
          refine ⟨hf, hrr, hl, by simpa using hra, ?_⟩
          · intro hcontra
            rw [hcontra] at hn
            cases hn
        · refine PairF_congr pr _ ?_ q.1 q.2
            (ih _ _ ?_ (fun q hq => hc q (by simp [hq])) hr q hq')
          · intro p
            rw [decPrimer_isNone, decPrimer_isNone, incPrimer_isNone, incPrimer_isNone]
          · intro q hq
            refine PairN_congr _ pr ?_ q.1 q.2 (hp q (by simp [hq]))
            intro p
            rw [decPrimer_isNone, decPrimer_isNone, incPrimer_isNone, incPrimer_isNone]

theorem fixVariants_variants_nonneg (depl : ℕ → Bool) (ratio : ℕ → ℚ)
    (zl : List (PVariant × PVariant)) :
    ∀ (d : ℚ) (pr : ℕ → Option ℚ),
      (∀ q ∈ zl, PairN pr q.1 q.2) →
      (∀ q ∈ zl, 0 ≤ q.1.conc ∧ 0 ≤ q.1.plen) →
      (∀ p, depl p = true → 0 ≤ ratio p) →
      ∀ v ∈ (fixVariants depl ratio d pr zl).variants, 0 ≤ v.conc ∧ 0 ≤ v.plen := by
  induction zl with
  | nil => intro d pr _ _ _ v hv; cases hv
  | cons q0 rest ih =>
    intro d pr hp hc hr v hv
    obtain ⟨v0, v1⟩ := q0
    obtain ⟨hf, hrr, hl, hcc⟩ := hp (v0, v1) (by simp)
    simp only at hf hrr hl hcc
    obtain ⟨hc0, hl0⟩ : 0 ≤ v0.conc ∧ 0 ≤ v0.plen := by
      have := hc (v0, v1) (by simp)
      simpa using this
    have hv1c : 0 ≤ v1.conc := by
      by_cases hn : ((pr v0.fwd).isNone || (pr v0.rev).isNone) = true
      · rw [if_pos hn] at hcc
        rw [hcc]
        exact hc0
      · rw [if_neg hn] at hcc
        rw [hcc]
        linarith
    have hv1l : 0 ≤ v1.plen := by rw [hl]; exact hl0
    unfold fixVariants at hv
    split at hv
    · rcases List.mem_cons.mp hv with rfl | hv'
      · exact ⟨hv1c, hv1l⟩
      · exact ih d pr (fun q hq => hp q (by simp [hq])) (fun q hq => hc q (by simp [hq]))
          hr v hv'
    · split at hv
      · rcases List.mem_cons.mp hv with rfl | hv'
        · exact ⟨hv1c, hv1l⟩
        · exact ih d pr (fun q hq => hp q (by simp [hq])) (fun q hq => hc q (by simp [hq]))
            hr v hv'
      next hno =>
        have hn : ((pr v0.fwd).isNone || (pr v0.rev).isNone) = false := by
          rw [← hf, ← hrr]
          revert hno
          cases ((pr v1.fwd).isNone || (pr v1.rev).isNone) <;> simp
        rw [hn] at hcc
        simp only [Bool.false_eq_true, if_false] at hcc
        rcases List.mem_cons.mp hv with rfl | hv'
        · constructor
          · show 0 ≤ v0.conc + (v1.conc - v0.conc)
              * min (if depl v1.fwd = true then ratio v1.fwd else 1)
                    (if depl v1.rev = true then ratio v1.rev else 1)
            have hra : 0 ≤ (v1.conc - v0.conc)
                * min (if depl v1.fwd = true then ratio v1.fwd else 1)
                      (if depl v1.rev = true then ratio v1.rev else 1) := by
              apply mul_nonneg
              · rw [hcc]; linarith
              · apply le_min
                · split
                  next hd => exact hr _ hd
                  next => linarith
                · split
                  next hd => exact hr _ hd
                  next => linarith
            linarith
          · exact hv1l
        · refine ih _ _ ?_ (fun q hq => hc q (by simp [hq])) hr v hv'
          intro q hq
          refine PairN_congr _ pr ?_ q.1 q.2 (hp q (by simp [hq]))
          intro p
          rw [decPrimer_isNone, decPrimer_isNone, incPrimer_isNone, incPrimer_isNone]

theorem scaleVariants_primers_isNone (cr : ℚ) (zl : List (PVariant × PVariant)) :
    ∀ (d : ℚ) (pr : ℕ → Option ℚ) (p : ℕ),
      ((scaleVariants cr d pr zl).primers p).isNone = (pr p).isNone := by
  induction zl with
  | nil => intro d pr p; rfl
  | cons q rest ih =>
    intro d pr p
    obtain ⟨v0, v1⟩ := q
    unfold scaleVariants
    split
    · exact ih d pr p
    · rw [ih _ _ p, decPrimer_isNone, decPrimer_isNone]

theorem scaleVariants_dNTP (cr : ℚ) (zl : List (PVariant × PVariant)) :
    ∀ (d : ℚ) (pr : ℕ → Option ℚ),
      (∀ q ∈ zl, PairF pr q.1 q.2) →
      (scaleVariants cr d pr zl).dNTP = d - cr * conSum zl := by
  induction zl with
  | nil => intro d pr _; simp [scaleVariants, conSum]
  | cons q0 rest ih =>
    intro d pr hp
    obtain ⟨v0, v1⟩ := q0
    obtain ⟨hf, hrr, hl, hle, hcc⟩ := hp (v0, v1) (by simp)
    simp only at hf hrr hl hle hcc
    unfold scaleVariants
    split
    next hno =>
      have hn : ((pr v0.fwd).isNone || (pr v0.rev).isNone) = true := by
        rw [← hf, ← hrr]
        exact hno
      rw [ih d pr fun q hq => hp q (by simp [hq])]
      simp only [conSum, List.map_cons, List.sum_cons]
      rw [hcc hn]
      ring
    next hno =>
      have hstep : ∀ q ∈ rest, PairF (decPrimer (decPrimer pr v1.fwd ((v1.conc - v0.conc) * cr))
          v1.rev ((v1.conc - v0.conc) * cr)) q.1 q.2 := by
        intro q hq
        refine PairF_congr _ pr ?_ q.1 q.2 (hp q (by simp [hq]))
        intro p
        rw [decPrimer_isNone, decPrimer_isNone]
      rw [ih _ _ hstep]
      simp only [conSum, List.map_cons, List.sum_cons]
      rw [hl]
      ring

theorem scaleVariants_variants_nonneg (cr : ℚ) (zl : List (PVariant × PVariant)) :
    ∀ (d : ℚ) (pr : ℕ → Option ℚ),
      (∀ q ∈ zl, PairF pr q.1 q.2) →
      (∀ q ∈ zl, 0 ≤ q.1.conc ∧ 0 ≤ q.1.plen) →
      0 ≤ cr →
      ∀ v ∈ (scaleVariants cr d pr zl).variants, 0 ≤ v.conc ∧ 0 ≤ v.plen := by
  induction zl with
  | nil => intro d pr _ _ _ v hv; cases hv
  | cons q0 rest ih =>
    intro d pr hp hc hcr v hv
    obtain ⟨v0, v1⟩ := q0
    obtain ⟨hf, hrr, hl, hle, hcc⟩ := hp (v0, v1) (by simp)
    simp only at hf hrr hl hle hcc
    obtain ⟨hc0, hl0⟩ : 0 ≤ v0.conc ∧ 0 ≤ v0.plen := by
      have := hc (v0, v1) (by simp)
      simpa using this
    unfold scaleVariants at hv
    split at hv
    · rcases List.mem_cons.mp hv with rfl | hv'
      · exact ⟨by linarith, by rw [hl]; exact hl0⟩
      · exact ih d pr (fun q hq => hp q (by simp [hq])) (fun q hq => hc q (by simp [hq]))
          hcr v hv'
    · rcases List.mem_cons.mp hv with rfl | hv'
      · constructor
        · show 0 ≤ v0.conc + (v1.conc - v0.conc) * cr
          have hnn : 0 ≤ (v1.conc - v0.conc) * cr := mul_nonneg (by linarith) hcr
          linarith
        · show 0 ≤ v1.plen
          rw [hl]
          exact hl0
      · refine ih _ _ ?_ (fun q hq => hc q (by simp [hq])) hcr v hv'
        intro q hq
        refine PairF_congr _ pr ?_ q.1 q.2 (hp q (by simp [hq]))
        intro p
        rw [decPrimer_isNone, decPrimer_isNone]


theorem PairN_toF (pr : ℕ → Option ℚ) (v0 v1 : PVariant)
    (h : PairN pr v0 v1) (h0 : 0 ≤ v0.conc) : PairF pr v0 v1 := by
  obtain ⟨hf, hr, hl, hc⟩ := h
  refine ⟨hf, hr, hl, ?_, ?_⟩
  · by_cases hn : ((pr v0.fwd).isNone || (pr v0.rev).isNone) = true
    · rw [if_pos hn] at hc
      rw [hc]
    · rw [if_neg hn] at hc
      rw [hc]
      linarith
  · intro hn
    rw [if_pos hn] at hc
    exact hc

theorem PairN_nonneg (pr : ℕ → Option ℚ) (v0 v1 : PVariant)
    (h : PairN pr v0 v1) (h0 : 0 ≤ v0.conc ∧ 0 ≤ v0.plen) :
    0 ≤ v1.conc ∧ 0 ≤ v1.plen := by
  obtain ⟨hf, hr, hl, hc⟩ := h
  refine ⟨?_, by rw [hl]; exact h0.2⟩
  by_cases hn : ((pr v0.fwd).isNone || (pr v0.rev).isNone) = true
  · rw [if_pos hn] at hc
    rw [hc]
    exact h0.1
  · rw [if_neg hn] at hc
    rw [hc]
    linarith [h0.1]

theorem noneOut_pos (pids : List ℕ) (pr : ℕ → Option ℚ) (p : ℕ) (v : ℚ)
    (hp : p ∈ pids) (h : noneOut pids pr p = some v) : 0 < v := by
  unfold noneOut at h
  rw [if_pos hp] at h
  cases hc : pr p with
  | none => rw [hc] at h; cases h
  | some w =>
    rw [hc] at h
    dsimp only at h
    by_cases hw : w ≤ 0
    · rw [if_pos hw] at h; cases h
    · rw [if_neg hw] at h
      cases h
      linarith

theorem noneOut_none (pids : List ℕ) (pr : ℕ → Option ℚ) (p : ℕ)
    (h : pr p = none) : noneOut pids pr p = none := by
  unfold noneOut
  split
  · rw [h]
  · exact h

theorem correct_cycle_spec (pids : List ℕ) (polymerase elongation : ℚ) (cycle : ℕ)
    (poly : List (ℕ × ℕ)) (prevD : ℚ) (prevP : ℕ → Option ℚ) (prevV : List PVariant)
    (curD : ℚ) (curP : ℕ → Option ℚ) (curV : List PVariant)
    (hpoly : 0 ≤ polymerase) (hel : 0 ≤ elongation)
    (hD : 0 ≤ prevD)
    (hP : ∀ p v, prevP p = some v → 0 ≤ v)
    (hout : ∀ p, p ∉ pids → prevP p = none)
    (hstr : ∀ p, (curP p).isNone = (prevP p).isNone)
    (hzip : ∀ q ∈ prevV.zip curV, PairN prevP q.1 q.2)
    (hlen : curV.length = prevV.length)
    (hv0 : ∀ v ∈ prevV, 0 ≤ v.conc ∧ 0 ≤ v.plen)
    (hcons : prevD - curD = conSum (prevV.zip curV)) :
    0 ≤ (correct_cycle pids polymerase elongation cycle poly
        prevD prevP prevV curD curP curV).dNTP
    ∧ (∀ p v, (correct_cycle pids polymerase elongation cycle poly
        prevD prevP prevV curD curP curV).primers p = some v → 0 ≤ v)
    ∧ (∀ p, prevP p = none → (correct_cycle pids polymerase elongation cycle poly
        prevD prevP prevV curD curP curV).primers p = none)
    ∧ (∀ v ∈ (correct_cycle pids polymerase elongation cycle poly
        prevD prevP prevV curD curP curV).variants, 0 ≤ v.conc ∧ 0 ≤ v.plen) := by
  have hzipC : ∀ q ∈ prevV.zip curV, PairN curP q.1 q.2 :=
    fun q hq => PairN_congr curP prevP (fun p => (hstr p).symm) q.1 q.2 (hzip q hq)
  have hv0' : ∀ q ∈ prevV.zip curV, 0 ≤ q.1.conc ∧ 0 ≤ q.1.plen := by
    intro q hq
    obtain ⟨a, b⟩ := q
    exact hv0 a (List.mem_zip hq).1
  have hrat : ∀ p, deplOf pids curP p = true →
      0 ≤ ratioOf prevP curP p ∧ ratioOf prevP curP p ≤ 1 := by
    intro p hp
    unfold deplOf at hp
    simp only [Bool.and_eq_true, decide_eq_true_eq] at hp
    obtain ⟨⟨hmem, hsome⟩, hneg⟩ := hp
    cases hc : curP p with
    | none => rw [hc] at hsome; cases hsome
    | some cv =>
      rw [hc] at hneg
      simp only [Option.getD_some] at hneg
      cases hpv : prevP p with
      | none =>
        have h2 := hstr p
        rw [hc, hpv] at h2
        simp at h2
      | some pv =>
        have hpv0 : 0 ≤ pv := hP p pv hpv
        unfold ratioOf
        rw [hc, hpv]
        simp only [Option.getD_some]
        constructor
        · exact div_nonneg hpv0 (by linarith)
        · rw [div_le_one (by linarith)]
          linarith
  have hfix_str : ∀ p,
      ((fixedOf pids prevP prevV curD curP curV).primers p).isNone = (prevP p).isNone := by
    intro p
    unfold fixedOf
    split
    · rw [fixVariants_primers_isNone]
      exact hstr p
    · exact hstr p
  have hmapfst : (prevV.zip curV).map Prod.fst = prevV :=
    List.map_fst_zip _ _ (by rw [hlen])
  have hconsfix : prevD - (fixedOf pids prevP prevV curD curP curV).dNTP
      = conSum (prevV.zip (fixedOf pids prevP prevV curD curP curV).variants) := by
    unfold fixedOf
    split
    · rw [fixVariants_dNTP _ _ _ _ _ hzipC, hmapfst]
      linarith [hcons]
    · exact hcons
  have hpairsF : ∀ q ∈ prevV.zip (fixedOf pids prevP prevV curD curP curV).variants,
      PairF curP q.1 q.2 := by
    unfold fixedOf
    split
    · have h2 := fixVariants_pairs (deplOf pids curP) (ratioOf prevP curP)
        (prevV.zip curV) curD curP hzipC (fun q hq => (hv0' q hq).1)
        (fun p hp => (hrat p hp).1)
      rw [hmapfst] at h2
      exact h2
    · intro q hq
      exact PairN_toF curP q.1 q.2 (hzipC q hq) (hv0' q hq).1
  have hvarsF : ∀ v ∈ (fixedOf pids prevP prevV curD curP curV).variants,
      0 ≤ v.conc ∧ 0 ≤ v.plen := by
    unfold fixedOf
    split
    · exact fixVariants_variants_nonneg _ _ _ _ _ hzipC hv0' (fun p hp => (hrat p hp).1)
    · intro v hv
      have hsnd : (prevV.zip curV).map Prod.snd = curV :=
        List.map_snd_zip _ _ (by rw [hlen])
      rw [← hsnd] at hv
      obtain ⟨q, hq, rfl⟩ := List.mem_map.mp hv
      exact PairN_nonneg curP q.1 q.2 (hzipC q hq) (hv0' q hq)
  have hv0fix : ∀ q ∈ prevV.zip (fixedOf pids prevP prevV curD curP curV).variants,
      0 ≤ q.1.conc ∧ 0 ≤ q.1.plen := by
    intro q hq
    obtain ⟨a, b⟩ := q
    exact hv0 a (List.mem_zip hq).1
  have hP2_str : ∀ p,
      ((zeroDepleted pids curP (fixedOf pids prevP prevV curD curP curV).primers) p).isNone
        = (prevP p).isNone := by
    intro p
    unfold zeroDepleted
    split
    next hcnd =>
      obtain ⟨hmem, hdp⟩ := hcnd
      unfold deplOf at hdp
      simp only [Bool.and_eq_true, decide_eq_true_eq] at hdp
      have hsome := hdp.1.2
      have h2 := hstr p
      cases hc : curP p with
      | none => rw [hc] at hsome; cases hsome
      | some cv =>
        rw [hc] at h2
        simp only [Option.isNone_some] at h2
        simp [← h2]
    next => exact hfix_str p
  have hmaxc : 0 ≤ maxConsumptionOf polymerase elongation := by
    unfold maxConsumptionOf
    apply div_nonneg _ (by norm_num)
    apply mul_nonneg _ hel
    apply mul_nonneg hpoly (by norm_num)
  unfold correct_cycle
  dsimp only
  split
  next hbr =>
    dsimp only
    have hconspos : 0 < prevD - (fixedOf pids prevP prevV curD curP curV).dNTP := by
      rcases hbr with hbr | hbr
      · linarith [hmaxc]
      · linarith
    have hcr0 : 0 ≤ min
        (maxConsumptionOf polymerase elongation
          / (prevD - (fixedOf pids prevP prevV curD curP curV).dNTP))
        (prevD / (prevD - (fixedOf pids prevP prevV curD curP curV).dNTP)) :=
      le_min (div_nonneg hmaxc hconspos.le) (div_nonneg hD hconspos.le)
    have hres_str : ∀ p,
        ((restoredOf pids prevP
          (zeroDepleted pids curP (fixedOf pids prevP prevV curD curP curV).primers)) p).isNone
          = (prevP p).isNone := by
      intro p
      unfold restoredOf
      split
      · rfl
      · exact hP2_str p
    have hpairsR : ∀ q ∈ prevV.zip (fixedOf pids prevP prevV curD curP curV).variants,
        PairF (restoredOf pids prevP
          (zeroDepleted pids curP (fixedOf pids prevP prevV curD curP curV).primers)) q.1 q.2 :=
      fun q hq => PairF_congr _ curP
        (fun p => (hstr p).trans (hres_str p).symm) q.1 q.2 (hpairsF q hq)
    have hsd := scaleVariants_dNTP
      (min (maxConsumptionOf polymerase elongation
          / (prevD - (fixedOf pids prevP prevV curD curP curV).dNTP))
        (prevD / (prevD - (fixedOf pids prevP prevV curD curP curV).dNTP)))
      (prevV.zip (fixedOf pids prevP prevV curD curP curV).variants)
      prevD
      (restoredOf pids prevP
        (zeroDepleted pids curP (fixedOf pids prevP prevV curD curP curV).primers))
      hpairsR
    have hscale_str : ∀ p,
        ((scaleVariants
          (min (maxConsumptionOf polymerase elongation
              / (prevD - (fixedOf pids prevP prevV curD curP curV).dNTP))
            (prevD / (prevD - (fixedOf pids prevP prevV curD curP curV).dNTP)))
          prevD
          (restoredOf pids prevP
            (zeroDepleted pids curP (fixedOf pids prevP prevV curD curP curV).primers))
          (prevV.zip (fixedOf pids prevP prevV curD curP curV).variants)).primers p).isNone
          = (prevP p).isNone := by
      intro p
      rw [scaleVariants_primers_isNone]
      exact hres_str p
    refine ⟨?_, ?_, ?_, ?_⟩
    · rw [hsd, ← hconsfix]
      have h3 := min_le_right (maxConsumptionOf polymerase elongation
          / (prevD - (fixedOf pids prevP prevV curD curP curV).dNTP))
        (prevD / (prevD - (fixedOf pids prevP prevV curD curP curV).dNTP))
      have h4 := mul_le_mul_of_nonneg_right h3 hconspos.le
      rw [div_mul_cancel₀ _ (ne_of_gt hconspos)] at h4
      linarith
    · intro p v h
      by_cases hp : p ∈ pids
      · exact (noneOut_pos pids _ p v hp h).le
      · have hnone := hout p hp
        have h2 := hscale_str p
        rw [hnone] at h2
        simp only [Option.isNone_none] at h2
        rw [Option.isNone_iff_eq_none] at h2
        rw [noneOut_none _ _ _ h2] at h
        cases h
    · intro p hnone
      have h2 := hscale_str p
      rw [hnone] at h2
      simp only [Option.isNone_none] at h2
      rw [Option.isNone_iff_eq_none] at h2
      exact noneOut_none _ _ _ h2
    · exact scaleVariants_variants_nonneg _ _ _ _ hpairsR hv0fix hcr0
  next hbr =>
    dsimp only
    push_neg at hbr
    refine ⟨hbr.2, ?_, ?_, ?_⟩
    · intro p v h
      by_cases hp : p ∈ pids
      · exact (noneOut_pos pids _ p v hp h).le
      · have hnone := hout p hp
        have h2 := hP2_str p
        rw [hnone] at h2
        simp only [Option.isNone_none] at h2
        rw [Option.isNone_iff_eq_none] at h2
        rw [noneOut_none _ _ _ h2] at h
        cases h
    · intro p hnone
      have h2 := hP2_str p
      rw [hnone] at h2
      simp only [Option.isNone_none] at h2
      rw [Option.isNone_iff_eq_none] at h2
      exact noneOut_none _ _ _ h2
    · exact hvarsF


/-- The end-of-cycle invariant of the kinetic simulation: non-negative
dNTP pool, non-negative primer concentrations, keys outside the primer
dictionary absent, and non-negative variant rows. -/
def KInv (pids : List ℕ) (s : KineticState) : Prop :=
  0 ≤ s.dNTP
  ∧ (∀ p v, s.primers p = some v → 0 ≤ v)
  ∧ (∀ p, p ∉ pids → s.primers p = none)
  ∧ ∀ v ∈ s.variants, 0 ≤ v.conc ∧ 0 ≤ v.plen

theorem pcrCycle_spec (pids : List ℕ) (polymerase elongation : ℚ) (cycle : ℕ)
    (s s' : KineticState)
    (hpoly : 0 ≤ polymerase) (hel : 0 ≤ elongation)
    (hs : KInv pids s)
    (h : pcrCycle pids polymerase elongation cycle s = some s') :
    KInv pids s' ∧ ∀ p, s.primers p = none → s'.primers p = none := by
  obtain ⟨hD, hP, hout, hv0⟩ := hs
  unfold pcrCycle at h
  dsimp only at h
  split at h
  · cases h
  · have hspec := correct_cycle_spec pids polymerase elongation cycle s.poly
      s.dNTP s.primers s.variants
      (normalCycle s.dNTP s.primers s.variants).dNTP
      (normalCycle s.dNTP s.primers s.variants).primers
      (normalCycle s.dNTP s.primers s.variants).variants
      hpoly hel hD hP hout
      (normalCycle_primers_isNone s.variants s.dNTP s.primers)
      (normalCycle_pairs s.variants s.dNTP s.primers)
      (normalCycle_variants_length s.variants s.dNTP s.primers)
      hv0
      (by rw [normalCycle_dNTP]; ring)
    obtain ⟨h1, h2, h3, h4⟩ := hspec
    injection h with h
    subst h
    exact ⟨⟨h1, h2, fun p hp => h3 p (hout p hp), h4⟩, fun p hp => h3 p hp⟩

theorem runCycles_spec (pids : List ℕ) (polymerase elongation : ℚ)
    (hpoly : 0 ≤ polymerase) (hel : 0 ≤ elongation) :
    ∀ (fuel cycle : ℕ) (s : KineticState), KInv pids s →
      KInv pids (runCycles pids polymerase elongation cycle s fuel)
      ∧ ∀ p, s.primers p = none →
          (runCycles pids polymerase elongation cycle s fuel).primers p = none := by
  intro fuel
  induction fuel with
  | zero => intro cycle s hs; exact ⟨hs, fun p hp => hp⟩
  | succ fuel ih =>
    intro cycle s hs
    unfold runCycles
    cases hc : pcrCycle pids polymerase elongation cycle s with
    | none => exact ⟨hs, fun p hp => hp⟩
    | some t =>
      have hstep := pcrCycle_spec pids polymerase elongation cycle s t hpoly hel hs hc
      dsimp only
      split
      · exact hstep
      · obtain ⟨h1, h2⟩ := hstep
        obtain ⟨g1, g2⟩ := ih (cycle + 1) t h1
        exact ⟨g1, fun p hp => g2 p (h2 p hp)⟩

/-- C7: during the cycle-by-cycle simulation (`PCR_Simulation.run`, cycles
4…N, each followed by `_correct_cycle`), if the state entering a cycle
satisfies the non-negativity invariant `KInv` (non-negative dNTP, primer
and variant concentrations; absent keys are `None`), then the state at the
end of the corrected cycle satisfies it again, a primer entry that is
`None` (depleted) stays `None` — it is neither consumed nor restored — and
the same holds for the whole remaining loop. -/
theorem cycle_nonneg_and_depletion_permanent
    (pids : List ℕ) (polymerase elongation : ℚ)
    (hpoly : 0 ≤ polymerase) (hel : 0 ≤ elongation)
    (fuel cycle : ℕ) (s : KineticState) (hs : KInv pids s) :
    (∀ s', pcrCycle pids polymerase elongation cycle s = some s' →
        KInv pids s' ∧ ∀ p, s.primers p = none → s'.primers p = none)
    ∧ KInv pids (runCycles pids polymerase elongation cycle s fuel)
    ∧ ∀ p, s.primers p = none →
        (runCycles pids polymerase elongation cycle s fuel).primers p = none := by
  refine ⟨fun s' h => pcrCycle_spec pids polymerase elongation cycle s s' hpoly hel hs h, ?_, ?_⟩
  · exact (runCycles_spec pids polymerase elongation hpoly hel fuel cycle s hs).1
  · exact (runCycles_spec pids polymerase elongation hpoly hel fuel cycle s hs).2

/-- Witness for C7 at a concrete state: two primers at concentration 5,
one variant of length 4, 100 units of dNTP, polymerase 1, elongation 30s,
two remaining cycles starting at cycle 4. -/
theorem cycle_nonneg_and_depletion_permanent_witness :
    ((0 : ℚ) ≤ 1 ∧ (0 : ℚ) ≤ 30
      ∧ KInv [0, 1] ⟨100, fun p => if p < 2 then some 5 else none, [⟨0, 1, 4, 1⟩], []⟩)
    ∧ ((∀ s', pcrCycle [0, 1] 1 30 4
          ⟨100, fun p => if p < 2 then some 5 else none, [⟨0, 1, 4, 1⟩], []⟩ = some s' →
          KInv [0, 1] s'
          ∧ ∀ p, (if p < 2 then some (5 : ℚ) else none) = none → s'.primers p = none)
      ∧ KInv [0, 1] (runCycles [0, 1] 1 30 4
          ⟨100, fun p => if p < 2 then some 5 else none, [⟨0, 1, 4, 1⟩], []⟩ 2)
      ∧ ∀ p, (if p < 2 then some (5 : ℚ) else none) = none →
          (runCycles [0, 1] 1 30 4
            ⟨100, fun p => if p < 2 then some 5 else none, [⟨0, 1, 4, 1⟩], []⟩ 2).primers p
            = none) := by
  have hinv : KInv [0, 1]
      ⟨100, fun p => if p < 2 then some 5 else none, [⟨0, 1, 4, 1⟩], []⟩ := by
    unfold KInv
    dsimp only
    refine ⟨by norm_num, ?_, ?_, ?_⟩
    · intro p v h
      split at h
      · injection h with h
        rw [← h]
        norm_num
      · cases h
    · intro p hp
      simp only [List.mem_cons, List.not_mem_nil, or_false] at hp
      rw [if_neg (by omega)]
    · intro v hv
      simp only [List.mem_singleton] at hv
      subst hv
      exact ⟨by norm_num, by norm_num⟩
  exact ⟨⟨by norm_num, by norm_num, hinv⟩,
    cycle_nonneg_and_depletion_permanent [0, 1] 1 30 (by norm_num) (by norm_num) 2 4 _ hinv⟩

end DegenPrimer
